import Mathlib

/-!
Shallow embedding of the parts of `habitat-lab` relevant to the sequence
packer (`habitat_baselines/rl/models/rnn_state_encoder.py`) and the batched
environment controller (`habitat/core/batched_env.py`), together with
theorems settling the specification claims about them.

Numpy `int64` arrays are modelled as `List ℕ` (all values arising in the
claims are non-negative and far from overflow), numpy matrices as lists of
rows, and Python exceptions as `Except String`.
-/

namespace RnnStateEncoder

/-- Inclusive cumulative sum, modelling `np.cumsum` on a 1-D array. -/
def npCumsum (l : List ℕ) : List ℕ :=
  (l.scanl (· + ·) 0).tail

/-- `np.max` / `ndarray.max()` on a 1-D array: fails (`ValueError`) on an
empty array, hence the `Option`. -/
def npMaxArr (l : List ℕ) : Option ℕ :=
  l.max?

/-- `ndarray.max()` on a (reachably) non-empty array, as used on the
per-environment episode-id slices inside the mask loop. -/
def npMax (l : List ℕ) : ℕ :=
  l.foldr max 0

/-- `ndarray.min()` on a (reachably) non-empty array. -/
def npMin (l : List ℕ) : ℕ :=
  match l with
  | [] => 0
  | x :: xs => xs.foldr min x

/-- `np.argsort` on a 1-D array: the list of indices that sorts the keys
ascending.  numpy's default sort is unspecified on ties; this embedding
refines it to the stable order (ties keep their original index order), which
is the order numpy's stable kinds produce.  All keys that claims depend on
are either unique (sort keys, asserted by the source) or only used up to
permutation. -/
def argsort (keys : List ℕ) : List ℕ :=
  (List.range keys.length).insertionSort (fun i j => keys.getD i 0 ≤ keys.getD j 0)

/-- Run-length encoding of a list: consecutive equal values are grouped into
`(value, count)` pairs. -/
def rle : List ℕ → List (ℕ × ℕ)
  | [] => []
  | x :: xs =>
    match rle xs with
    | [] => [(x, 1)]
    | (v, c) :: rest => if x = v then (v, c + 1) :: rest else (x, 1) :: (v, c) :: rest

/-- `np.unique(l, return_counts=True)`: numpy sorts the array and collapses
equal runs, returning the sorted unique values together with their
multiplicities. -/
def npUniqueCounts (l : List ℕ) : List (ℕ × ℕ) :=
  rle (l.insertionSort (· ≤ ·))

/-- `np.unique(l)` (values only, sorted ascending). -/
def npUniqueVals (l : List ℕ) : List ℕ :=
  (npUniqueCounts l).map Prod.fst

/-- `np.nonzero(mask)[0]` for a 1-D boolean mask. -/
def nonzeroIdx (mask : List Bool) : List ℕ :=
  (List.range mask.length).filter (fun i => mask.getD i false)

/-- The output dictionary of `build_pack_info_from_episode_ids`. -/
structure PackInfo where
  select_inds : List ℕ
  num_seqs_at_step : List ℕ
  sequence_starts : List ℕ
  sequence_lengths : List ℕ
  rnn_state_batch_inds : List ℕ
  last_sequence_in_batch_mask : List Bool
  first_sequence_in_batch_mask : List Bool
  last_sequence_in_batch_inds : List ℕ
  first_episode_in_batch_inds : List ℕ
  deriving Repr, DecidableEq

/-- One iteration of the `for next_len in np.unique(lengths)` loop of
`build_pack_info_from_episode_ids`.  The state is
`(num_valid_for_length, prev_len, select_inds so far, num_seqs_at_step so far)`;
`num_seqs_at_step` is built by appending the slice `[prev_len:next_len]`
that the source writes into the pre-allocated array, and the
`(next_len - prev_len, num_valid) `block of new indices is flattened
row-major (`reshape(-1)`), i.e. the time offset `t` varies in the outer
loop and the sequence slot `j` in the inner loop. -/
def packStep (startsS lengths : List ℕ) (st : ℕ × ℕ × List ℕ × List ℕ) (next : ℕ) :
    ℕ × ℕ × List ℕ × List ℕ :=
  let nv' := (lengths.take st.1).countP (fun x => decide (st.2.1 < x))
  let newInds := (List.range' st.2.1 (next - st.2.1)).flatMap
    (fun t => (startsS.take nv').map (fun s => s + t))
  (nv', next, st.2.2.1 ++ newInds, st.2.2.2 ++ List.replicate (next - st.2.1) nv')

/-- The whole packing loop of `build_pack_info_from_episode_ids`
(lines 72-93 of `rnn_state_encoder.py`), producing `select_inds` (in sorted
coordinates, before composition with `episode_id_sorting`) and
`num_seqs_at_step`. -/
def packLoop (startsS lengths : List ℕ) : List ℕ × List ℕ :=
  let st := (npUniqueVals lengths).foldl (packStep startsS lengths) (lengths.length, 0, [], [])
  (st.2.2.1, st.2.2.2)

/-- Line 37 of `rnn_state_encoder.py`: make the episode ids globally unique,
`episode_ids * (environment_ids.max() + 1) + environment_ids`. -/
def uniquifyEids (episode_ids environment_ids : List ℕ) (envMax : ℕ) : List ℕ :=
  episode_ids.zipWith (fun e v => e * (envMax + 1) + v) environment_ids

/-- Line 42: the composite sort keys
`episode_ids * (step_ids.max() + 1) + step_ids` (on the uniquified ids). -/
def sortKeysOf (eids step_ids : List ℕ) (stepMax : ℕ) : List ℕ :=
  eids.zipWith (fun e s => e * (stepMax + 1) + s) step_ids

/-- The uniquified episode ids put into sort-key order,
`episode_ids[episode_id_sorting]`. -/
def sortedEidsOf (eids sortKeys : List ℕ) : List ℕ :=
  (argsort sortKeys).map (fun i => eids.getD i 0)

/-- Lines 49-60: `np.unique(..., return_counts=True)`, the exclusive-cumsum
starts `np.cumsum(sequence_lengths) - sequence_lengths`, and the descending
sort by length of the three parallel arrays
(`unique_episode_ids`, `sequence_starts`, `sequence_lengths`), embedded as
one list of `(unique episode id, sequence start, sequence length)` triples.
`np.argsort(-sequence_lengths)` applied simultaneously to the three arrays
is modelled by sorting the zipped triples by descending length (stable on
ties, see `argsort`). -/
def seqTriples (eids sortKeys : List ℕ) : List (ℕ × ℕ × ℕ) :=
  let runs := npUniqueCounts (sortedEidsOf eids sortKeys)
  let sequenceLengths0 := runs.map Prod.snd
  let sequenceStarts0 :=
    (npCumsum sequenceLengths0).zipWith (fun a b => a - b) sequenceLengths0
  let triples := (runs.map Prod.fst).zip (sequenceStarts0.zip sequenceLengths0)
  triples.insertionSort (fun a b => b.2.2 ≤ a.2.2)

/-- `sequence_lengths` (descending) as returned in the output dict. -/
def seqLengthsOf (eids sortKeys : List ℕ) : List ℕ :=
  (seqTriples eids sortKeys).map (fun p => p.2.2)

/-- The sequence starts (positions in sorted coordinates), parallel to
`seqLengthsOf`. -/
def seqStartsSortedOf (eids sortKeys : List ℕ) : List ℕ :=
  (seqTriples eids sortKeys).map (fun p => p.2.1)

/-- `select_inds`: the loop output composed with `episode_id_sorting`
(line 97, `select_inds = episode_id_sorting[select_inds]`). -/
def selectIndsOf (eids sortKeys : List ℕ) : List ℕ :=
  (packLoop (seqStartsSortedOf eids sortKeys) (seqLengthsOf eids sortKeys)).1.map
    (fun i => (argsort sortKeys).getD i 0)

/-- `num_seqs_at_step` as filled in by the loop. -/
def numSeqsAtStepOf (eids sortKeys : List ℕ) : List ℕ :=
  (packLoop (seqStartsSortedOf eids sortKeys) (seqLengthsOf eids sortKeys)).2

/-- Line 98: `sequence_starts = select_inds[0 : num_seqs_at_step[0]]`. -/
def seqStartsOf (eids sortKeys : List ℕ) : List ℕ :=
  (selectIndsOf eids sortKeys).take ((numSeqsAtStepOf eids sortKeys).getD 0 0)

/-- Lines 104-105 zipped: for each sequence start, the pair
`(environment_ids[start], unsorted_episode_ids[start])`. -/
def pairsEVOf (eids environment_ids sortKeys : List ℕ) : List (ℕ × ℕ) :=
  ((seqStartsOf eids sortKeys).map (fun i => environment_ids.getD i 0)).zip
    ((seqStartsOf eids sortKeys).map (fun i => eids.getD i 0))

/-- The per-environment loop of lines 109-117 writes each position of
`last_sequence_in_batch_mask` exactly once, in the iteration handling that
position's environment id; embedded positionwise: position `i` holds
`ids[i] == max of the ids sharing environment env[i]`. -/
def lastMaskOf (eids environment_ids sortKeys : List ℕ) : List Bool :=
  let pairsEV := pairsEVOf eids environment_ids sortKeys
  pairsEV.map
    (fun p => decide (p.2 = npMax ((pairsEV.filter (fun q => q.1 = p.1)).map Prod.snd)))

/-- Positionwise form of `first_sequence_in_batch_mask` (see `lastMaskOf`). -/
def firstMaskOf (eids environment_ids sortKeys : List ℕ) : List Bool :=
  let pairsEV := pairsEVOf eids environment_ids sortKeys
  pairsEV.map
    (fun p => decide (p.2 = npMin ((pairsEV.filter (fun q => q.1 = p.1)).map Prod.snd)))

/-- Lines 119-128: `rnn_state_batch_inds[i]` is the inclusive cumulative
count of `first` flags, evaluated at the unique flagged position of
environment `env[i]`, minus one. -/
def rnnStateBatchIndsOf (eids environment_ids sortKeys : List ℕ) : List ℕ :=
  let pairsEV := pairsEVOf eids environment_ids sortKeys
  let firstMask := firstMaskOf eids environment_ids sortKeys
  let firstCumsum := npCumsum (firstMask.map (fun b => if b then 1 else 0))
  let maskedPairs := pairsEV.zip firstMask
  pairsEV.map (fun p =>
    firstCumsum.getD (maskedPairs.findIdx (fun q => decide (q.1.1 = p.1) && q.2)) 0 - 1)

/-- The output dictionary of `build_pack_info_from_episode_ids` (lines
130-144), as a function of the uniquified episode ids, the raw environment
ids and the sort keys. -/
def packResult (eids environment_ids sortKeys : List ℕ) : PackInfo :=
  { select_inds := selectIndsOf eids sortKeys
    num_seqs_at_step := numSeqsAtStepOf eids sortKeys
    sequence_starts := seqStartsOf eids sortKeys
    sequence_lengths := seqLengthsOf eids sortKeys
    rnn_state_batch_inds := rnnStateBatchIndsOf eids environment_ids sortKeys
    last_sequence_in_batch_mask := lastMaskOf eids environment_ids sortKeys
    first_sequence_in_batch_mask := firstMaskOf eids environment_ids sortKeys
    last_sequence_in_batch_inds := nonzeroIdx (lastMaskOf eids environment_ids sortKeys)
    first_episode_in_batch_inds := nonzeroIdx (firstMaskOf eids environment_ids sortKeys) }

/-- `build_pack_info_from_episode_ids` from `rnn_state_encoder.py`.

Faithfulness notes on the embedding:
* `environment_ids.max()` / `step_ids.max()` raise `ValueError` on an empty
  array: modelled by the `Option` match failing into `Except.error`.
* the `assert np.unique(sort_keys).size == sort_keys.size` raises a plain
  `AssertionError` when the composite sort keys collide.
* `max_length = int(lengths[0])` raises `IndexError` on an empty `lengths`
  array (possible only when the input arrays are degenerate), modelled by
  the emptiness test on the sequence triples. -/
def build_pack_info_from_episode_ids (episode_ids environment_ids step_ids : List ℕ) :
    Except String PackInfo := do
  let some envMax := npMaxArr environment_ids
    | throw "ValueError: zero-size array to reduction operation maximum"
  let eids := uniquifyEids episode_ids environment_ids envMax
  let some stepMax := npMaxArr step_ids
    | throw "ValueError: zero-size array to reduction operation maximum"
  let sortKeys := sortKeysOf eids step_ids stepMax
  if sortKeys.Nodup then
    if (seqTriples eids sortKeys).isEmpty then
      throw "IndexError: index 0 is out of bounds"
    else
      pure (packResult eids environment_ids sortKeys)
  else
    throw "AssertionError: np.unique(sort_keys).size == sort_keys.size"

/-- Column-wise inclusive cumulative sum (`np.cumsum(dones, 0)`) over the
rows of a boolean matrix, carrying the per-column accumulator. -/
def cumsumRows (acc : List ℕ) : List (List Bool) → List (List ℕ)
  | [] => []
  | r :: rs =>
    let acc' := acc.zipWith (fun a b => a + (if b then 1 else 0)) r
    acc' :: cumsumRows acc' rs

/-- `build_pack_info_from_dones` from `rnn_state_encoder.py`.  `dones` is a
`(T, N)` matrix given as `T` rows of length `N`; the three index arrays are
its row-major (`reshape(-1)`) flattenings of `np.cumsum(dones, 0)`, of
`np.arange(N)` broadcast along rows, and of `np.arange(T)` broadcast along
columns. -/
def build_pack_info_from_dones (N : ℕ) (dones : List (List Bool)) :
    Except String PackInfo :=
  build_pack_info_from_episode_ids
    ((cumsumRows (List.replicate N 0) dones).flatten)
    ((List.replicate dones.length (List.range N)).flatten)
    (((List.range dones.length).map (fun t => List.replicate N t)).flatten)

/-- Proof-level reformulation of the exclusive-cumsum starts: `startsOf acc
[c1, c2, ...] = [acc, acc + c1, acc + c1 + c2, ...]`. -/
def startsOf (acc : ℕ) : List ℕ → List ℕ
  | [] => []
  | c :: cs => acc :: startsOf (acc + c) cs

/-- Proof-level reformulation of the `(value, start, length)` triples built
from run-length `(value, count)` pairs, generalised over a start offset. -/
def triplesAux (acc : ℕ) : List (ℕ × ℕ) → List (ℕ × ℕ × ℕ)
  | [] => []
  | (v, c) :: R => (v, acc, c) :: triplesAux (acc + c) R

/-- Number of sequences whose length exceeds `t`; the value
`num_seqs_at_step[t]` holds by construction. -/
def countGt (lengths : List ℕ) (t : ℕ) : ℕ :=
  lengths.countP (fun x => decide (t < x))

/-- `_invert_permutation` from `rnn_state_encoder.py`: a `torch.scatter_`
writing `output[permutation[i]] = i` for each `i`, starting from an
uninitialised (here zero-filled) buffer of the same length. -/
def invert_permutation (permutation : List ℕ) : List ℕ :=
  (List.range permutation.length).foldl
    (fun out i => out.set (permutation.getD i 0) i)
    (List.replicate permutation.length 0)

/-- The data row-reordering done by `build_rnn_inputs`
(`x.index_select(0, select_inds)`): rows of the `(T*N, feature)` tensor `x`
are abstract values of type `α`. -/
def rnnInputsData {α : Type} (d : α) (select_inds : List ℕ) (x : List α) : List α :=
  select_inds.map (fun i => x.getD i d)

/-- The data row-reordering done by `build_rnn_out_from_seq`
(`x_seq.data.index_select(0, _invert_permutation(select_inds))`). -/
def rnnOutData {α : Type} (d : α) (select_inds : List ℕ) (packedData : List α) : List α :=
  (invert_permutation select_inds).map (fun i => packedData.getD i d)

end RnnStateEncoder

namespace BatchedEnvModel

/-- Model of the external `BatchedSimulator` as seen through the calls
`wait_step` makes on it: the reward and done lists it hands back for the
current frame. -/
structure BSim where
  rewards : List ℚ
  dones : List Bool
  deriving Repr, DecidableEq

/-- The state of a `habitat.core.batched_env.BatchedEnv` relevant to the
claims: the configured environment count (`self._num_envs`), the list of
paused indices (`self._paused`), the closed flag (`self._is_closed`) and
the optional backing simulator (`self._bsim`, `None` in stub mode).
`reward_scale` is `config.REWARD_SCALE`. -/
structure BatchedEnv where
  num_envs_config : ℕ
  paused : List ℤ
  is_closed : Bool
  bsim : Option BSim
  reward_scale : ℚ
  deriving Repr, DecidableEq

/-- `BatchedEnv.__init__`: asserts `config.NUM_ENVIRONMENTS > 0`, builds the
simulator unless `config.STUB_BATCH_SIMULATOR` is set (in which case
`self._bsim = None`), ends with `self._is_closed = False` and
`self._paused = []`. -/
def init (numEnvironments : ℕ) (stub : Bool) (sim : BSim) (rewardScale : ℚ) :
    Except String BatchedEnv :=
  if numEnvironments > 0 then
    Except.ok {
      num_envs_config := numEnvironments
      paused := []
      is_closed := false
      bsim := if stub then none else some sim
      reward_scale := rewardScale }
  else
    Except.error "AssertionError: number of environments to be created should be greater than 0"

/-- The `num_envs` property: `self._num_envs - len(self._paused)` (a Python
`int`, so it may go negative). -/
def num_envs (e : BatchedEnv) : ℤ :=
  (e.num_envs_config : ℤ) - e.paused.length

/-- `pause_at`: unconditionally appends the index to `self._paused` with no
validation. -/
def pause_at (e : BatchedEnv) (index : ℤ) : BatchedEnv :=
  { e with paused := e.paused ++ [index] }

/-- `resume_all`: resets `self._paused` to the empty list. -/
def resume_all (e : BatchedEnv) : BatchedEnv :=
  { e with paused := [] }

/-- `close`: returns immediately when already closed; otherwise calls
`self._bsim.close()` unconditionally — in stub mode `self._bsim` is `None`
and the attribute access raises. -/
def close (e : BatchedEnv) : Except String BatchedEnv :=
  if e.is_closed then
    Except.ok e
  else
    match e.bsim with
    | none => Except.error "AttributeError: 'NoneType' object has no attribute 'close'"
    | some _ => Except.ok { e with bsim := none, is_closed := true }

/-- `wait_step`: with a backing simulator it reads `self._num_envs`-long
reward/done lists from it (asserting those lengths) and rescales rewards
when `REWARD_SCALE != 1`; in stub mode it fabricates
`[0.0] * self._num_envs` and `[False] * self._num_envs`.  `infos` is always
`[{}] * self._num_envs`.  The observations slot (the batched observation
dict, which is not a per-slot list at all) is abstracted to `Unit`. -/
def wait_step (e : BatchedEnv) :
    Except String (Unit × List ℚ × List Bool × List Unit) :=
  match e.bsim with
  | some b =>
    if b.rewards.length = e.num_envs_config then
      if b.dones.length = e.num_envs_config then
        if e.reward_scale ≠ 1 then
          Except.ok ((), b.rewards.map (fun r => r * e.reward_scale), b.dones,
            List.replicate e.num_envs_config ())
        else
          Except.ok ((), b.rewards, b.dones, List.replicate e.num_envs_config ())
      else
        Except.error "AssertionError: len(dones) == self._num_envs"
    else
      Except.error "AssertionError: len(rewards) == self._num_envs"
  | none =>
    Except.ok ((), List.replicate e.num_envs_config (0 : ℚ),
      List.replicate e.num_envs_config false, List.replicate e.num_envs_config ())

end BatchedEnvModel

namespace RnnStateEncoder

theorem packResult_select_inds (eids environment_ids sortKeys : List ℕ) :
    (packResult eids environment_ids sortKeys).select_inds = selectIndsOf eids sortKeys := rfl

theorem packResult_num_seqs (eids environment_ids sortKeys : List ℕ) :
    (packResult eids environment_ids sortKeys).num_seqs_at_step =
      numSeqsAtStepOf eids sortKeys := rfl

theorem packResult_seq_lengths (eids environment_ids sortKeys : List ℕ) :
    (packResult eids environment_ids sortKeys).sequence_lengths =
      seqLengthsOf eids sortKeys := rfl

theorem packResult_seq_starts (eids environment_ids sortKeys : List ℕ) :
    (packResult eids environment_ids sortKeys).sequence_starts =
      seqStartsOf eids sortKeys := rfl

theorem packResult_last_mask (eids environment_ids sortKeys : List ℕ) :
    (packResult eids environment_ids sortKeys).last_sequence_in_batch_mask =
      lastMaskOf eids environment_ids sortKeys := by
  unfold packResult
  with_reducible rfl

theorem packResult_first_mask (eids environment_ids sortKeys : List ℕ) :
    (packResult eids environment_ids sortKeys).first_sequence_in_batch_mask =
      firstMaskOf eids environment_ids sortKeys := by
  unfold packResult
  with_reducible rfl

theorem rle_flatten : ∀ l : List ℕ, (rle l).flatMap (fun p => List.replicate p.2 p.1) = l
  | [] => rfl
  | x :: xs => by
    have ih := rle_flatten xs
    rw [rle]
    cases h : rle xs with
    | nil =>
      rw [h] at ih
      simp only [List.flatMap_nil] at ih
      simp [← ih]
    | cons p rest =>
      obtain ⟨v, c⟩ := p
      rw [h] at ih
      by_cases hx : x = v
      · subst hx
        dsimp only
        rw [if_pos rfl]
        simp only [List.flatMap_cons] at ih ⊢
        rw [List.replicate_succ, List.cons_append, ih]
      · dsimp only
        rw [if_neg hx]
        simp only [List.flatMap_cons] at ih ⊢
        simp only [List.replicate_one, List.singleton_append, List.cons_inj_right]
        exact ih

theorem rle_counts_pos : ∀ l : List ℕ, ∀ p ∈ rle l, 0 < p.2
  | [], _, h => by simp [rle] at h
  | x :: xs, p, h => by
    have ih := rle_counts_pos xs
    rw [rle] at h
    revert h
    cases hr : rle xs with
    | nil => intro h; simp at h; simp [h]
    | cons q rest =>
      obtain ⟨v, c⟩ := q
      by_cases hx : x = v
      · subst hx
        simp only [if_pos rfl]
        intro h
        rcases List.mem_cons.1 h with h1 | h1
        · subst h1; simp
        · exact ih _ (hr ▸ List.mem_cons_of_mem _ h1)
      · simp only [if_neg hx]
        intro h
        rcases List.mem_cons.1 h with h1 | h1
        · subst h1; simp
        · exact ih _ (hr ▸ h1)

theorem rle_head_val : ∀ (x : ℕ) (xs : List ℕ), ∃ c rest, rle (x :: xs) = (x, c) :: rest
  | x, xs => by
    rw [rle]
    cases rle xs with
    | nil => exact ⟨1, [], rfl⟩
    | cons q rest =>
      obtain ⟨v, c⟩ := q
      by_cases hx : x = v
      · subst hx; exact ⟨c + 1, rest, by simp⟩
      · exact ⟨1, (v, c) :: rest, by simp [hx]⟩

theorem rle_values_sorted : ∀ l : List ℕ, l.Pairwise (· ≤ ·) →
    ((rle l).map Prod.fst).Pairwise (· < ·)
  | [], _ => by simp [rle]
  | x :: xs, h => by
    have hs := (List.pairwise_cons.1 h).2
    have hle := (List.pairwise_cons.1 h).1
    have ih := rle_values_sorted xs hs
    rw [rle]
    cases hr : rle xs with
    | nil => simp
    | cons q rest =>
      obtain ⟨v, c⟩ := q
      rw [hr] at ih
      have hvx : v ∈ xs := by
        cases xs with
        | nil => simp [rle] at hr
        | cons y ys =>
          obtain ⟨c', rest', hy⟩ := rle_head_val y ys
          rw [hy] at hr
          have : v = y := by
            have := congrArg (fun l => (List.map Prod.fst l).head?) hr
            simpa using this.symm
          simp [this]
      by_cases hx : x = v
      · subst hx; simpa using ih
      · simp only [if_neg hx, List.map_cons]
        rw [List.pairwise_cons]
        refine ⟨?_, by simpa using ih⟩
        intro a ha
        have hxv : x < v := lt_of_le_of_ne (hle v hvx) hx
        rcases List.mem_cons.1 ha with h1 | h1
        · simpa [h1] using hxv
        · have : v < a := (List.pairwise_cons.1 (by simpa using ih)).1 a h1
          exact hxv.trans this

theorem cumsum_sub_eq_startsOf : ∀ (l : List ℕ) (acc : ℕ),
    ((l.scanl (· + ·) acc).tail).zipWith (fun a b => a - b) l = startsOf acc l
  | [], _ => rfl
  | c :: cs, acc => by
    have ih := cumsum_sub_eq_startsOf cs (acc + c)
    cases cs with
    | nil => simp [startsOf]
    | cons d ds =>
      simp only [List.scanl_cons, List.singleton_append, List.tail_cons] at ih ⊢
      rw [startsOf, List.zipWith_cons_cons, Nat.add_sub_cancel, ih]

theorem npCumsum_sub (l : List ℕ) :
    (npCumsum l).zipWith (fun a b => a - b) l = startsOf 0 l :=
  cumsum_sub_eq_startsOf l 0

theorem zip_startsOf_eq_triplesAux : ∀ (R : List (ℕ × ℕ)) (acc : ℕ),
    (R.map Prod.fst).zip ((startsOf acc (R.map Prod.snd)).zip (R.map Prod.snd)) =
      triplesAux acc R
  | [], _ => rfl
  | (v, c) :: R, acc => by
    have ih := zip_startsOf_eq_triplesAux R (acc + c)
    simp only [List.map_cons, startsOf, triplesAux, List.zip_cons_cons]
    rw [ih]

theorem triplesAux_map_fst : ∀ (R : List (ℕ × ℕ)) (acc : ℕ),
    (triplesAux acc R).map (fun t => t.1) = R.map Prod.fst
  | [], _ => rfl
  | (v, c) :: R, acc => by
    simp only [triplesAux, List.map_cons]
    rw [triplesAux_map_fst]

theorem triplesAux_map_len : ∀ (R : List (ℕ × ℕ)) (acc : ℕ),
    (triplesAux acc R).map (fun t => t.2.2) = R.map Prod.snd
  | [], _ => rfl
  | (v, c) :: R, acc => by
    simp only [triplesAux, List.map_cons]
    rw [triplesAux_map_len]

theorem triplesAux_blocks : ∀ (R : List (ℕ × ℕ)) (acc : ℕ),
    (triplesAux acc R).flatMap (fun t => List.range' t.2.1 t.2.2) =
      List.range' acc (R.map Prod.snd).sum
  | [], _ => by simp [triplesAux]
  | (v, c) :: R, acc => by
    simp only [triplesAux, List.flatMap_cons, List.map_cons, List.sum_cons]
    rw [triplesAux_blocks, List.range'_append_1,
      Nat.add_comm ((List.map Prod.snd R).sum) c]

theorem triplesAux_pos : ∀ (R : List (ℕ × ℕ)) (acc : ℕ), (∀ p ∈ R, 0 < p.2) →
    ∀ t ∈ triplesAux acc R, 0 < t.2.2
  | [], _, _, t, ht => by simp [triplesAux] at ht
  | (v, c) :: R, acc, hpos, t, ht => by
    simp only [triplesAux, List.mem_cons] at ht
    rcases ht with h | h
    · subst h; simpa using hpos (v, c) (List.mem_cons_self _ _)
    · exact triplesAux_pos R (acc + c) (fun p hp => hpos p (List.mem_cons_of_mem _ hp)) t h

theorem triplesAux_bounds : ∀ (R : List (ℕ × ℕ)) (acc : ℕ),
    ∀ t ∈ triplesAux acc R, acc ≤ t.2.1 ∧ t.2.1 + t.2.2 ≤ acc + (R.map Prod.snd).sum
  | [], _, t, ht => by simp [triplesAux] at ht
  | (v, c) :: R, acc, t, ht => by
    simp only [triplesAux, List.mem_cons] at ht
    rcases ht with h | h
    · subst h
      simp only [List.map_cons, List.sum_cons]
      omega
    · have := triplesAux_bounds R (acc + c) t h
      simp only [List.map_cons, List.sum_cons]
      omega

theorem triplesAux_getD_flat : ∀ (R : List (ℕ × ℕ)) (acc : ℕ) (G : List ℕ),
    G.length = acc → (∀ p ∈ R, 0 < p.2) →
    ∀ t ∈ triplesAux acc R,
      (G ++ R.flatMap (fun p => List.replicate p.2 p.1)).getD t.2.1 0 = t.1
  | [], _, _, _, _, t, ht => by simp [triplesAux] at ht
  | (v, c) :: R, acc, G, hG, hpos, t, ht => by
    simp only [triplesAux, List.mem_cons] at ht
    rcases ht with h | h
    · subst h
      have hc : 0 < c := hpos _ (List.mem_cons_self _ _)
      simp only [List.flatMap_cons]
      rw [List.getD_eq_getElem?_getD, List.getElem?_append_right (by omega)]
      rw [hG]
      simp only [Nat.sub_self]
      rw [List.getElem?_append_left (by simpa using hc)]
      rcases Nat.exists_eq_add_of_lt hc with ⟨c', hc'⟩
      subst hc'
      simp [List.replicate_succ]
    · have hlen : (G ++ List.replicate c v).length = acc + c := by
        simp [hG]
      have := triplesAux_getD_flat R (acc + c) (G ++ List.replicate c v) hlen
        (fun p hp => hpos p (List.mem_cons_of_mem _ hp)) t h
      simpa [List.flatMap_cons, List.append_assoc] using this

theorem argsort_perm (keys : List ℕ) : (argsort keys).Perm (List.range keys.length) :=
  List.perm_insertionSort _ _

theorem argsort_length (keys : List ℕ) : (argsort keys).length = keys.length := by
  simpa using (argsort_perm keys).length_eq

theorem argsort_nodup (keys : List ℕ) : (argsort keys).Nodup :=
  ((argsort_perm keys).nodup_iff).2 (List.nodup_range _)

theorem argsort_mem_lt {keys : List ℕ} {i : ℕ} (h : i ∈ argsort keys) : i < keys.length := by
  have := ((argsort_perm keys).mem_iff).1 h
  simpa using this

theorem argsort_sorted (keys : List ℕ) :
    (argsort keys).Pairwise (fun i j => keys.getD i 0 ≤ keys.getD j 0) := by
  have ht : IsTotal ℕ (fun i j => keys.getD i 0 ≤ keys.getD j 0) :=
    ⟨fun a b => Nat.le_total _ _⟩
  have htr : IsTrans ℕ (fun i j => keys.getD i 0 ≤ keys.getD j 0) :=
    ⟨fun a b c hab hbc => Nat.le_trans hab hbc⟩
  exact List.sorted_insertionSort _ _

theorem map_getD_range {α : Type} (l : List α) (d : α) :
    (List.range l.length).map (fun i => l.getD i d) = l := by
  apply List.ext_getElem
  · simp
  · intro i h1 h2
    simp only [List.getElem_map, List.getElem_range]
    exact List.getD_eq_getElem l d h2

theorem perm_map_getD {α : Type} (l : List α) (d : α) (p : List ℕ)
    (hp : p.Perm (List.range l.length)) :
    (p.map (fun i => l.getD i d)).Perm l := by
  have h := hp.map (fun i => l.getD i d)
  rwa [map_getD_range] at h


theorem take_countP_of_desc : ∀ {L : List ℕ}, L.Pairwise (fun a b => b ≤ a) → ∀ (t : ℕ),
    L.take (countGt L t) = L.filter (fun x => decide (t < x))
  | [], _, _ => rfl
  | a :: L', h, t => by
    have htail := (List.pairwise_cons.1 h).2
    have hhead := (List.pairwise_cons.1 h).1
    by_cases hta : t < a
    · have hpa : (fun x => decide (t < x)) a = true := by simp [hta]
      rw [countGt, List.countP_cons, if_pos hpa, List.take_succ_cons,
        List.filter_cons, if_pos hpa]
      rw [← countGt, take_countP_of_desc htail t]
    · have hz : countGt (a :: L') t = 0 := by
        rw [countGt, List.countP_eq_zero]
        intro x hx
        simp only [decide_eq_true_eq]
        rcases List.mem_cons.1 hx with h1 | h1
        · omega
        · have := hhead x h1
          omega
      rw [hz, List.take_zero]
      symm
      rw [List.filter_eq_nil_iff]
      intro x hx
      simp only [decide_eq_true_eq]
      rcases List.mem_cons.1 hx with h1 | h1
      · omega
      · have := hhead x h1
        omega

theorem countP_take_of_desc {L : List ℕ} (hd : L.Pairwise (fun a b => b ≤ a))
    {nv t : ℕ} (h : countGt L t ≤ nv) :
    (L.take nv).countP (fun x => decide (t < x)) = countGt L t := by
  by_cases hnv : L.length ≤ nv
  · rw [List.take_of_length_le hnv, countGt]
  · push_neg at hnv
    have hsplit : L.take nv ++ L.drop nv = L := List.take_append_drop nv L
    have hcnt : countGt L t =
        (L.take nv).countP (fun x => decide (t < x)) +
          (L.drop nv).countP (fun x => decide (t < x)) := by
      rw [countGt]
      conv_lhs => rw [← hsplit]
      rw [List.countP_append]
    by_cases hdrop : (L.drop nv).countP (fun x => decide (t < x)) = 0
    · omega
    · exfalso
      have ⟨y, hy, hty⟩ : ∃ y ∈ L.drop nv, t < y := by
        by_contra hc
        push_neg at hc
        exact hdrop (List.countP_eq_zero.2 (fun a ha => by
          simpa using Nat.not_lt.2 (hc a ha)))
      have hpw : ∀ a ∈ L.take nv, ∀ b ∈ L.drop nv, b ≤ a := by
        have := hsplit ▸ hd
        exact fun a ha b hb => (List.pairwise_append.1 this).2.2 a ha b hb
      have hall : ∀ a ∈ L.take nv, t < a := fun a ha =>
        Nat.lt_of_lt_of_le hty (hpw a ha y hy)
      have hfull : (L.take nv).countP (fun x => decide (t < x)) = (L.take nv).length :=
        List.countP_eq_length.2 (fun a ha => by simpa using hall a ha)
      have hlen : (L.take nv).length = nv := by
        rw [List.length_take]
        omega
      omega

theorem le_getLastD : ∀ (l : List ℕ) (a : ℕ), l.Pairwise (· < ·) →
    (∀ y ∈ l, a ≤ y) → a ≤ l.getLastD a
  | [], _, _, _ => Nat.le_refl _
  | y :: ys, a, hp, hy => by
    rw [List.getLastD_cons]
    have h1 : a ≤ y := hy y (List.mem_cons_self _ _)
    have h2 : y ≤ ys.getLastD y :=
      le_getLastD ys y (List.pairwise_cons.1 hp).2
        (fun z hz => Nat.le_of_lt ((List.pairwise_cons.1 hp).1 z hz))
    omega

theorem mem_le_getLastD : ∀ (l : List ℕ) (a x : ℕ), l.Pairwise (· < ·) →
    x ∈ l → x ≤ l.getLastD a
  | [], _, _, _, hx => by simp at hx
  | y :: ys, a, x, hp, hx => by
    rw [List.getLastD_cons]
    rcases List.mem_cons.1 hx with h1 | h1
    · subst h1
      exact le_getLastD ys x (List.pairwise_cons.1 hp).2
        (fun z hz => Nat.le_of_lt ((List.pairwise_cons.1 hp).1 z hz))
    · exact mem_le_getLastD ys y x (List.pairwise_cons.1 hp).2 h1

theorem getLastD_mem : ∀ (l : List ℕ) (a : ℕ), l ≠ [] → l.getLastD a ∈ l
  | [], _, h => absurd rfl h
  | y :: ys, a, _ => by
    rw [List.getLastD_cons]
    cases ys with
    | nil => simp [List.getLastD]
    | cons z zs =>
      exact List.mem_cons_of_mem _ (getLastD_mem (z :: zs) y (by simp))

theorem packGo (startsS L : List ℕ) (hdesc : L.Pairwise (fun a b => b ≤ a)) :
    ∀ (D : List ℕ) (nv prev : ℕ) (sel nss : List ℕ),
    D.Pairwise (· < ·) →
    (∀ d ∈ D, d ∈ L) →
    (∀ d ∈ D, prev < d) →
    (∀ x ∈ L, x ≤ prev ∨ x ∈ D) →
    countGt L prev ≤ nv → nv ≤ L.length →
    (D.foldl (packStep startsS L) (nv, prev, sel, nss)).2.2 =
      (sel ++ (List.range' prev (D.getLastD prev - prev)).flatMap
          (fun t => (startsS.take (countGt L t)).map (fun s => s + t)),
       nss ++ (List.range' prev (D.getLastD prev - prev)).map (countGt L))
  | [], nv, prev, sel, nss, _, _, _, _, _, _ => by
    simp [List.getLastD]
  | d :: D', nv, prev, sel, nss, hD, hmem, hprev, hvals, hnv1, hnv2 => by
    have hpd : prev < d := hprev d (List.mem_cons_self _ _)
    have hstep : packStep startsS L (nv, prev, sel, nss) d =
        (countGt L prev, d,
         sel ++ (List.range' prev (d - prev)).flatMap
           (fun t => (startsS.take (countGt L t)).map (fun s => s + t)),
         nss ++ (List.range' prev (d - prev)).map (countGt L)) := by
      have hnv' : (L.take nv).countP (fun x => decide (prev < x)) = countGt L prev :=
        countP_take_of_desc hdesc hnv1
      have hcongr : ∀ t ∈ List.range' prev (d - prev), countGt L t = countGt L prev := by
        intro t ht
        rw [List.mem_range'_1] at ht
        have htd : t < d := by omega
        apply List.countP_congr
        intro x hx
        simp only [decide_eq_true_eq]
        constructor
        · intro h
          omega
        · intro h
          rcases hvals x hx with h1 | h1
          · omega
          · rcases List.mem_cons.1 h1 with h2 | h2
            · omega
            · have := (List.pairwise_cons.1 hD).1 x h2
              omega
      simp only [packStep, hnv']
      refine congrArg _ (congrArg _ ?_)
      refine congrArg₂ _ ?_ ?_
      · refine congrArg _ ?_
        rw [List.flatMap_def, List.flatMap_def]
        refine congrArg _ (List.map_congr_left ?_)
        intro t ht
        rw [hcongr t ht]
      · refine congrArg _ ?_
        have : (List.range' prev (d - prev)).map (countGt L) =
            (List.range' prev (d - prev)).map (fun _ => countGt L prev) :=
          List.map_congr_left (fun t ht => hcongr t ht)
        rw [this, List.map_const', List.length_range']
    rw [List.foldl_cons, hstep]
    have hrest := packGo startsS L hdesc D' (countGt L prev) d
      (sel ++ (List.range' prev (d - prev)).flatMap
        (fun t => (startsS.take (countGt L t)).map (fun s => s + t)))
      (nss ++ (List.range' prev (d - prev)).map (countGt L))
      (List.pairwise_cons.1 hD).2
      (fun d' hd' => hmem d' (List.mem_cons_of_mem _ hd'))
      (fun d' hd' => (List.pairwise_cons.1 hD).1 d' hd')
      (fun x hx => by
        rcases hvals x hx with h1 | h1
        · exact Or.inl (by omega)
        · rcases List.mem_cons.1 h1 with h2 | h2
          · exact Or.inl (by omega)
          · exact Or.inr h2)
      (List.countP_mono_left (fun x _ hx => by
        simp only [decide_eq_true_eq] at *
        omega))
      (List.countP_le_length _)
    rw [hrest]
    have hd_last : d ≤ D'.getLastD d :=
      le_getLastD D' d (List.pairwise_cons.1 hD).2
        (fun z hz => Nat.le_of_lt ((List.pairwise_cons.1 hD).1 z hz))
    have hsplitr : List.range' prev (d - prev) ++ List.range' d (D'.getLastD d - d) =
        List.range' prev (D'.getLastD d - prev) := by
      have := List.range'_append_1 prev (d - prev) (D'.getLastD d - d)
      rw [show prev + (d - prev) = d by omega] at this
      rw [this]
      congr 1
      omega
    rw [List.getLastD_cons, Prod.mk.injEq]
    refine ⟨?_, ?_⟩
    · rw [List.append_assoc, ← List.flatMap_append, hsplitr]
    · rw [List.append_assoc, ← List.map_append, hsplitr]


theorem npMaxArr_spec {l : List ℕ} {m : ℕ} (h : npMaxArr l = some m) :
    m ∈ l ∧ ∀ x ∈ l, x ≤ m := by
  rw [npMaxArr, List.max?_eq_some_iff (fun a => Nat.le_refl a)
    (fun a b => max_choice a b) (fun a b c => max_le_iff)] at h
  exact h

theorem mem_of_rle_fst {l : List ℕ} {v : ℕ} (h : v ∈ (rle l).map Prod.fst) : v ∈ l := by
  obtain ⟨p, hp, hv⟩ := List.mem_map.1 h
  have hc := rle_counts_pos l p hp
  rw [← rle_flatten l]
  refine List.mem_flatMap.2 ⟨p, hp, ?_⟩
  rw [← hv]
  exact List.mem_replicate.2 ⟨Nat.pos_iff_ne_zero.1 hc, rfl⟩

theorem mem_rle_fst {l : List ℕ} {x : ℕ} (h : x ∈ l) : x ∈ (rle l).map Prod.fst := by
  rw [← rle_flatten l] at h
  obtain ⟨p, hp, hx⟩ := List.mem_flatMap.1 h
  have hxv := (List.mem_replicate.1 hx).2
  subst hxv
  exact List.mem_map.2 ⟨p, hp, rfl⟩

theorem insSort_asc_sorted (l : List ℕ) :
    (l.insertionSort (· ≤ ·)).Pairwise (· ≤ ·) :=
  List.sorted_insertionSort _ l

theorem npUniqueVals_sorted (l : List ℕ) : (npUniqueVals l).Pairwise (· < ·) :=
  rle_values_sorted _ (insSort_asc_sorted l)

theorem mem_npUniqueVals {l : List ℕ} {x : ℕ} : x ∈ npUniqueVals l ↔ x ∈ l := by
  constructor
  · intro h
    have := mem_of_rle_fst h
    rwa [List.mem_insertionSort] at this
  · intro h
    exact mem_rle_fst ((List.mem_insertionSort _).2 h)

theorem headD_max_of_desc {L : List ℕ} (hd : L.Pairwise (fun a b => b ≤ a)) :
    ∀ x ∈ L, x ≤ L.headD 0 := by
  cases L with
  | nil => simp
  | cons a L' =>
    intro x hx
    rcases List.mem_cons.1 hx with h1 | h1
    · simp [h1]
    · simpa using (List.pairwise_cons.1 hd).1 x h1

theorem npUniqueVals_getLastD (L : List ℕ) (hdesc : L.Pairwise (fun a b => b ≤ a)) :
    (npUniqueVals L).getLastD 0 = L.headD 0 := by
  cases L with
  | nil => simp [npUniqueVals, npUniqueCounts, List.insertionSort, rle]
  | cons a L' =>
    have hne : npUniqueVals (a :: L') ≠ [] := by
      intro hc
      have h1 : rle ((a :: L').insertionSort (· ≤ ·)) = [] := by
        rwa [npUniqueVals, npUniqueCounts, List.map_eq_nil_iff] at hc
      have h2 := rle_flatten ((a :: L').insertionSort (· ≤ ·))
      rw [h1] at h2
      simp only [List.flatMap_nil] at h2
      have := congrArg List.length h2
      rw [List.length_insertionSort] at this
      simp at this
    have hmem : (npUniqueVals (a :: L')).getLastD 0 ∈ a :: L' :=
      mem_npUniqueVals.1 (getLastD_mem _ _ hne)
    have hle : (npUniqueVals (a :: L')).getLastD 0 ≤ a := by
      simpa using headD_max_of_desc hdesc _ hmem
    have hge : a ≤ (npUniqueVals (a :: L')).getLastD 0 :=
      mem_le_getLastD _ 0 a (npUniqueVals_sorted _)
        (mem_npUniqueVals.2 (List.mem_cons_self _ _))
    simpa using Nat.le_antisymm hle hge

theorem packLoop_char (startsS L : List ℕ) (hdesc : L.Pairwise (fun a b => b ≤ a))
    (hpos : ∀ x ∈ L, 0 < x) :
    packLoop startsS L =
      ((List.range (L.headD 0)).flatMap
          (fun t => (startsS.take (countGt L t)).map (fun s => s + t)),
       (List.range (L.headD 0)).map (countGt L)) := by
  have hgo := packGo startsS L hdesc (npUniqueVals L) L.length 0 [] []
    (npUniqueVals_sorted L)
    (fun d hd => mem_npUniqueVals.1 hd)
    (fun d hd => hpos d (mem_npUniqueVals.1 hd))
    (fun x hx => Or.inr (mem_npUniqueVals.2 hx))
    (List.countP_le_length _)
    (Nat.le_refl _)
  rw [npUniqueVals_getLastD L hdesc, Nat.sub_zero] at hgo
  rw [packLoop]
  simp only [hgo, List.nil_append]
  rw [List.range_eq_range']


theorem flatMap_cons_perm {α : Type} (a : ℕ → α) (g : ℕ → List α) :
    ∀ l : List ℕ, (l.flatMap (fun t => a t :: g t)).Perm (l.map a ++ l.flatMap g)
  | [] => by simp
  | t :: l => by
    simp only [List.flatMap_cons, List.map_cons, List.cons_append]
    refine List.Perm.cons _ ?_
    have ih := flatMap_cons_perm a g l
    have h1 : (g t ++ l.flatMap (fun t => a t :: g t)).Perm
        (g t ++ (l.map a ++ l.flatMap g)) := ih.append_left _
    have h2 : (g t ++ (l.map a ++ l.flatMap g)).Perm
        ((l.map a ++ g t) ++ l.flatMap g) := by
      rw [← List.append_assoc]
      exact (List.perm_append_comm).append_right _
    have h3 : ((l.map a ++ g t) ++ l.flatMap g) = l.map a ++ (g t ++ l.flatMap g) :=
      List.append_assoc _ _ _
    exact (h1.trans h2).trans (List.Perm.of_eq h3)

theorem take_countP_key {α : Type} (k : α → ℕ) :
    ∀ {P : List α}, P.Pairwise (fun a b => k b ≤ k a) → ∀ (t : ℕ),
    P.take (P.countP (fun x => decide (t < k x))) = P.filter (fun x => decide (t < k x))
  | [], _, _ => rfl
  | a :: P', h, t => by
    have htail := (List.pairwise_cons.1 h).2
    have hhead := (List.pairwise_cons.1 h).1
    by_cases hta : t < k a
    · have hpa : (fun x => decide (t < k x)) a = true := by simp [hta]
      rw [List.countP_cons, if_pos hpa, List.take_succ_cons, List.filter_cons, if_pos hpa]
      rw [take_countP_key k htail t]
    · have hz : (a :: P').countP (fun x => decide (t < k x)) = 0 := by
        rw [List.countP_eq_zero]
        intro x hx
        simp only [decide_eq_true_eq]
        rcases List.mem_cons.1 hx with h1 | h1
        · subst h1
          omega
        · have := hhead x h1
          omega
      rw [hz, List.take_zero]
      symm
      rw [List.filter_eq_nil_iff]
      intro x hx
      simp only [decide_eq_true_eq]
      rcases List.mem_cons.1 hx with h1 | h1
      · subst h1
        omega
      · have := hhead x h1
        omega

theorem columns_perm_blocks :
    ∀ (P : List (ℕ × ℕ × ℕ)) (M : ℕ), (∀ p ∈ P, p.2.2 ≤ M) →
    ((List.range M).flatMap
        (fun t => ((P.filter (fun p => decide (t < p.2.2))).map (fun p => p.2.1)).map
          (fun s => s + t))).Perm
      (P.flatMap (fun p => List.range' p.2.1 p.2.2))
  | [], M, _ => by simp
  | p :: P', M, hb => by
    have hpM : p.2.2 ≤ M := hb p (List.mem_cons_self _ _)
    have hsplit : List.range M = List.range' 0 p.2.2 ++ List.range' p.2.2 (M - p.2.2) := by
      have h := List.range'_append_1 0 p.2.2 (M - p.2.2)
      rw [Nat.zero_add] at h
      have h2 : M = (M - p.2.2) + p.2.2 := by omega
      rw [List.range_eq_range']
      conv_lhs => rw [h2, ← h]
    have hcol1 : ∀ t ∈ List.range' 0 p.2.2,
        (((p :: P').filter (fun q => decide (t < q.2.2))).map (fun q => q.2.1)).map
            (fun s => s + t) =
          (p.2.1 + t) ::
            (((P'.filter (fun q => decide (t < q.2.2))).map (fun q => q.2.1)).map
              (fun s => s + t)) := by
      intro t ht
      rw [List.mem_range'_1] at ht
      have hc : (fun q : ℕ × ℕ × ℕ => decide (t < q.2.2)) p = true := by
        simp only [decide_eq_true_eq]
        omega
      rw [List.filter_cons, if_pos hc, List.map_cons, List.map_cons]
    have hcol2 : ∀ t ∈ List.range' p.2.2 (M - p.2.2),
        (((p :: P').filter (fun q => decide (t < q.2.2))).map (fun q => q.2.1)).map
            (fun s => s + t) =
          ((P'.filter (fun q => decide (t < q.2.2))).map (fun q => q.2.1)).map
            (fun s => s + t) := by
      intro t ht
      rw [List.mem_range'_1] at ht
      have hc : (fun q : ℕ × ℕ × ℕ => decide (t < q.2.2)) p = false := by
        simp only [decide_eq_false_iff_not]
        omega
      rw [List.filter_cons, if_neg (by simp [hc])]
    rw [hsplit, List.flatMap_append]
    rw [List.flatMap_def, List.map_congr_left hcol1, ← List.flatMap_def]
    rw [List.flatMap_def ((List.range' p.2.2 (M - p.2.2))), List.map_congr_left hcol2,
      ← List.flatMap_def]
    have hperm1 := flatMap_cons_perm (fun t => p.2.1 + t)
      (fun t => ((P'.filter (fun q => decide (t < q.2.2))).map (fun q => q.2.1)).map
        (fun s => s + t))
      (List.range' 0 p.2.2)
    have hmapr : (List.range' 0 p.2.2).map (fun t => p.2.1 + t) = List.range' p.2.1 p.2.2 := by
      simp
    have hih := columns_perm_blocks P' M (fun q hq => hb q (List.mem_cons_of_mem _ hq))
    simp only [List.flatMap_cons]
    refine (hperm1.append_right _).trans ?_
    rw [hmapr, List.append_assoc, ← List.flatMap_append, ← hsplit]
    exact hih.append_left _


theorem seqTriples_eq (eids sortKeys : List ℕ) :
    seqTriples eids sortKeys =
      (triplesAux 0 (npUniqueCounts (sortedEidsOf eids sortKeys))).insertionSort
        (fun a b => b.2.2 ≤ a.2.2) := by
  simp only [seqTriples]
  rw [npCumsum_sub, zip_startsOf_eq_triplesAux]

theorem seqTriples_perm (eids sortKeys : List ℕ) :
    (seqTriples eids sortKeys).Perm
      (triplesAux 0 (npUniqueCounts (sortedEidsOf eids sortKeys))) := by
  rw [seqTriples_eq]
  exact List.perm_insertionSort _ _

theorem seqTriples_desc (eids sortKeys : List ℕ) :
    (seqTriples eids sortKeys).Pairwise (fun a b => b.2.2 ≤ a.2.2) := by
  rw [seqTriples_eq]
  have ht : IsTotal (ℕ × ℕ × ℕ) (fun a b => b.2.2 ≤ a.2.2) :=
    ⟨fun a b => (Nat.le_total _ _).symm⟩
  have htr : IsTrans (ℕ × ℕ × ℕ) (fun a b => b.2.2 ≤ a.2.2) :=
    ⟨fun a b c hab hbc => Nat.le_trans hbc hab⟩
  exact List.sorted_insertionSort _ _

theorem seqLengths_desc (eids sortKeys : List ℕ) :
    (seqLengthsOf eids sortKeys).Pairwise (fun a b => b ≤ a) := by
  rw [seqLengthsOf, List.pairwise_map]
  exact seqTriples_desc eids sortKeys

theorem seqTriples_pos (eids sortKeys : List ℕ) :
    ∀ t ∈ seqTriples eids sortKeys, 0 < t.2.2 := by
  intro t ht
  have hmem := ((seqTriples_perm eids sortKeys).mem_iff).1 ht
  exact triplesAux_pos _ 0 (rle_counts_pos _) t hmem

theorem seqLengths_pos (eids sortKeys : List ℕ) :
    ∀ x ∈ seqLengthsOf eids sortKeys, 0 < x := by
  intro x hx
  rw [seqLengthsOf] at hx
  obtain ⟨t, ht, rfl⟩ := List.mem_map.1 hx
  exact seqTriples_pos eids sortKeys t ht

theorem sum_counts_rle (x : List ℕ) : ((rle x).map Prod.snd).sum = x.length := by
  have h := congrArg List.length (rle_flatten x)
  rw [List.length_flatMap] at h
  rw [← h]
  congr 1
  apply List.map_congr_left
  intro p _
  simp

theorem seqTriples_blocks_perm (eids sortKeys : List ℕ) :
    ((seqTriples eids sortKeys).flatMap (fun t => List.range' t.2.1 t.2.2)).Perm
      (List.range (sortedEidsOf eids sortKeys).length) := by
  refine ((seqTriples_perm eids sortKeys).flatMap_right _).trans ?_
  rw [triplesAux_blocks]
  rw [npUniqueCounts, sum_counts_rle]
  rw [List.length_insertionSort, List.range_eq_range']

theorem seqTriples_len_le (eids sortKeys : List ℕ) :
    ∀ p ∈ seqTriples eids sortKeys, p.2.2 ≤ (seqLengthsOf eids sortKeys).headD 0 := by
  intro p hp
  exact headD_max_of_desc (seqLengths_desc eids sortKeys) _
    (List.mem_map.2 ⟨p, hp, rfl⟩)

theorem selRaw_perm (eids sortKeys : List ℕ) :
    ((packLoop (seqStartsSortedOf eids sortKeys) (seqLengthsOf eids sortKeys)).1).Perm
      (List.range (sortedEidsOf eids sortKeys).length) := by
  rw [packLoop_char _ _ (seqLengths_desc eids sortKeys) (seqLengths_pos eids sortKeys)]
  have hcols : ∀ t ∈ List.range ((seqLengthsOf eids sortKeys).headD 0),
      ((seqStartsSortedOf eids sortKeys).take (countGt (seqLengthsOf eids sortKeys) t)).map
          (fun s => s + t) =
        (((seqTriples eids sortKeys).filter (fun p => decide (t < p.2.2))).map
          (fun p => p.2.1)).map (fun s => s + t) := by
    intro t _
    congr 1
    rw [seqStartsSortedOf, countGt, seqLengthsOf, List.countP_map, ← List.map_take]
    congr 1
    exact take_countP_key (fun p : ℕ × ℕ × ℕ => p.2.2) (seqTriples_desc eids sortKeys) t
  rw [List.flatMap_def, List.map_congr_left hcols, ← List.flatMap_def]
  exact (columns_perm_blocks _ _ (seqTriples_len_le eids sortKeys)).trans
    (seqTriples_blocks_perm eids sortKeys)

theorem sortedEids_length (eids sortKeys : List ℕ) :
    (sortedEidsOf eids sortKeys).length = sortKeys.length := by
  rw [sortedEidsOf, List.length_map, argsort_length]

theorem selectInds_perm (eids sortKeys : List ℕ) :
    (selectIndsOf eids sortKeys).Perm (List.range sortKeys.length) := by
  rw [selectIndsOf]
  have h1 := selRaw_perm eids sortKeys
  rw [sortedEids_length, ← argsort_length] at h1
  exact (perm_map_getD (argsort sortKeys) 0 _ h1).trans (argsort_perm sortKeys)


theorem build_ok_inv {episode_ids environment_ids step_ids : List ℕ} {info : PackInfo}
    (h : build_pack_info_from_episode_ids episode_ids environment_ids step_ids =
      Except.ok info) :
    ∃ envMax stepMax,
      npMaxArr environment_ids = some envMax ∧
      npMaxArr step_ids = some stepMax ∧
      (sortKeysOf (uniquifyEids episode_ids environment_ids envMax) step_ids stepMax).Nodup ∧
      seqTriples (uniquifyEids episode_ids environment_ids envMax)
        (sortKeysOf (uniquifyEids episode_ids environment_ids envMax) step_ids stepMax) ≠ [] ∧
      info = packResult (uniquifyEids episode_ids environment_ids envMax) environment_ids
        (sortKeysOf (uniquifyEids episode_ids environment_ids envMax) step_ids stepMax) := by
  rw [build_pack_info_from_episode_ids] at h
  cases henv : npMaxArr environment_ids with
  | none =>
    rw [henv] at h
    simp at h
  | some envMax =>
    rw [henv] at h
    cases hstep : npMaxArr step_ids with
    | none =>
      rw [hstep] at h
      simp at h
    | some stepMax =>
      rw [hstep] at h
      dsimp only at h
      by_cases hnd :
          (sortKeysOf (uniquifyEids episode_ids environment_ids envMax) step_ids stepMax).Nodup
      · rw [if_pos hnd] at h
        by_cases hempty :
            (seqTriples (uniquifyEids episode_ids environment_ids envMax)
              (sortKeysOf (uniquifyEids episode_ids environment_ids envMax) step_ids
                stepMax)).isEmpty
        · rw [if_pos hempty] at h
          simp [Except.ok] at h
        · rw [if_neg hempty] at h
          refine ⟨envMax, stepMax, rfl, rfl, hnd, ?_, ?_⟩
          · intro hc
            rw [hc] at hempty
            simp at hempty
          · have : (pure (packResult (uniquifyEids episode_ids environment_ids envMax)
                environment_ids
                (sortKeysOf (uniquifyEids episode_ids environment_ids envMax) step_ids
                  stepMax)) : Except String PackInfo) =
                Except.ok (packResult _ _ _) := rfl
            rw [this] at h
            exact (Except.ok.inj h).symm
      · rw [if_neg hnd] at h
        simp at h

theorem flatten_const_length {α : Type} :
    ∀ (L : List (List α)) (N : ℕ), (∀ r ∈ L, r.length = N) →
    L.flatten.length = L.length * N
  | [], _, _ => by simp
  | r :: L, N, h => by
    rw [List.flatten_cons, List.length_append, List.length_cons,
      flatten_const_length L N (fun r hr => h r (List.mem_cons_of_mem _ hr)),
      h r (List.mem_cons_self _ _)]
    ring

theorem cumsumRows_length : ∀ (dones : List (List Bool)) (acc : List ℕ),
    (cumsumRows acc dones).length = dones.length
  | [], _ => rfl
  | r :: rs, acc => by
    rw [cumsumRows, List.length_cons, List.length_cons, cumsumRows_length rs]

theorem cumsumRows_row_length : ∀ (dones : List (List Bool)) (acc : List ℕ) (N : ℕ),
    acc.length = N → (∀ r ∈ dones, r.length = N) →
    ∀ row ∈ cumsumRows acc dones, row.length = N
  | [], _, _, _, _, row, hrow => by simp [cumsumRows] at hrow
  | r :: rs, acc, N, hacc, hrows, row, hrow => by
    rw [cumsumRows] at hrow
    have hlen : (acc.zipWith (fun a b => a + if b then 1 else 0) r).length = N := by
      rw [List.length_zipWith, hacc, hrows r (List.mem_cons_self _ _)]
      omega
    rcases List.mem_cons.1 hrow with h1 | h1
    · rw [h1]
      exact hlen
    · exact cumsumRows_row_length rs _ N hlen
        (fun x hx => hrows x (List.mem_cons_of_mem _ hx)) row h1

theorem dones_episode_ids_length (N : ℕ) (dones : List (List Bool))
    (hrows : ∀ r ∈ dones, r.length = N) :
    ((cumsumRows (List.replicate N 0) dones).flatten).length = dones.length * N := by
  rw [flatten_const_length _ N
    (cumsumRows_row_length dones _ N (List.length_replicate _ _) hrows),
    cumsumRows_length]

theorem dones_environment_ids_length (T N : ℕ) :
    ((List.replicate T (List.range N)).flatten).length = T * N := by
  rw [flatten_const_length _ N (fun r hr => by
    rw [List.eq_of_mem_replicate hr, List.length_range]), List.length_replicate]

theorem dones_step_ids_length (T N : ℕ) :
    (((List.range T).map (fun t => List.replicate N t)).flatten).length = T * N := by
  rw [flatten_const_length _ N (fun r hr => by
    obtain ⟨t, _, rfl⟩ := List.mem_map.1 hr
    exact List.length_replicate _ _), List.length_map, List.length_range]

theorem dones_sortKeys_length (T N : ℕ) (dones : List (List Bool))
    (hlen : dones.length = T) (hrows : ∀ r ∈ dones, r.length = N)
    (envMax stepMax : ℕ) :
    (sortKeysOf
      (uniquifyEids ((cumsumRows (List.replicate N 0) dones).flatten)
        ((List.replicate T (List.range N)).flatten) envMax)
      (((List.range T).map (fun t => List.replicate N t)).flatten) stepMax).length =
      T * N := by
  rw [sortKeysOf, List.length_zipWith, uniquifyEids, List.length_zipWith]
  rw [dones_episode_ids_length N dones hrows, hlen, dones_environment_ids_length,
    dones_step_ids_length]
  omega


theorem foldl_set_length : ∀ (is : List ℕ) (out : List ℕ) (p : List ℕ),
    (is.foldl (fun o i => o.set (p.getD i 0) i) out).length = out.length
  | [], _, _ => rfl
  | i :: is, out, p => by
    rw [List.foldl_cons, foldl_set_length is _ p, List.length_set]

theorem getD_set_ne {l : List ℕ} {i j a : ℕ} (h : i ≠ j) :
    (l.set i a).getD j 0 = l.getD j 0 := by
  rw [List.getD_eq_getElem?_getD, List.getD_eq_getElem?_getD, List.getElem?_set_ne h]

theorem getD_set_self {l : List ℕ} {j a : ℕ} (h : j < l.length) :
    (l.set j a).getD j 0 = a := by
  rw [List.getD_eq_getElem?_getD, List.getElem?_set_self h]
  rfl

theorem foldl_set_untouched : ∀ (is : List ℕ) (out : List ℕ) (p : List ℕ) (j : ℕ),
    (∀ i ∈ is, p.getD i 0 ≠ j) →
    (is.foldl (fun o i => o.set (p.getD i 0) i) out).getD j 0 = out.getD j 0
  | [], _, _, _, _ => rfl
  | i :: is, out, p, j, h => by
    rw [List.foldl_cons,
      foldl_set_untouched is _ p j (fun i' hi' => h i' (List.mem_cons_of_mem _ hi'))]
    exact getD_set_ne (h i (List.mem_cons_self _ _))

theorem foldl_set_hit : ∀ (is : List ℕ) (out : List ℕ) (p : List ℕ) (i0 j : ℕ),
    is.Nodup → i0 ∈ is → p.getD i0 0 = j → j < out.length →
    (∀ i ∈ is, i ≠ i0 → p.getD i 0 ≠ j) →
    (is.foldl (fun o i => o.set (p.getD i 0) i) out).getD j 0 = i0
  | [], _, _, _, _, _, hmem, _, _, _ => by simp at hmem
  | i :: is, out, p, i0, j, hnd, hmem, hp, hj, huniq => by
    rw [List.foldl_cons]
    by_cases hi : i = i0
    · subst hi
      rw [foldl_set_untouched is _ p j (fun i' hi' => by
        have : i' ≠ i := fun hc => (List.nodup_cons.1 hnd).1 (hc ▸ hi')
        exact huniq i' (List.mem_cons_of_mem _ hi') this)]
      rw [hp]
      exact getD_set_self hj
    · have hmem' : i0 ∈ is := by
        rcases List.mem_cons.1 hmem with h1 | h1
        · exact absurd h1.symm hi
        · exact h1
      exact foldl_set_hit is _ p i0 j (List.nodup_cons.1 hnd).2 hmem' hp
        (by rwa [List.length_set])
        (fun i' hi' hne => huniq i' (List.mem_cons_of_mem _ hi') hne)

theorem invert_permutation_getD {p : List ℕ} (hperm : p.Perm (List.range p.length)) :
    ∀ j < p.length, (invert_permutation p).getD j 0 = p.indexOf j := by
  intro j hj
  have hmemj : j ∈ p := hperm.mem_iff.2 (List.mem_range.2 hj)
  have hidx : p.indexOf j < p.length := List.indexOf_lt_length.2 hmemj
  have hnd : p.Nodup := hperm.nodup_iff.2 (List.nodup_range _)
  rw [invert_permutation]
  refine foldl_set_hit _ _ _ (p.indexOf j) j (List.nodup_range _)
    (List.mem_range.2 hidx) ?_ (by simpa using hj) ?_
  · rw [List.getD_eq_getElem _ _ hidx]
    exact List.getElem_indexOf hidx
  · intro i hi hne
    rw [List.mem_range] at hi
    rw [List.getD_eq_getElem _ _ hi]
    intro hc
    apply hne
    have : p[i] = p[p.indexOf j] := by
      rw [List.getElem_indexOf hidx, hc]
    exact (hnd.getElem_inj_iff.1 this)

theorem invert_permutation_length (p : List ℕ) :
    (invert_permutation p).length = p.length := by
  rw [invert_permutation, foldl_set_length, List.length_replicate]

theorem pack_unpack_roundtrip {α : Type} (d : α) (x : List α) (p : List ℕ)
    (hp : p.Perm (List.range p.length)) (hx : x.length = p.length) :
    rnnOutData d p (rnnInputsData d p x) = x := by
  apply List.ext_getElem
  · rw [rnnOutData, List.length_map, invert_permutation_length, hx]
  · intro j h1 h2
    rw [rnnOutData, List.length_map, invert_permutation_length] at h1
    simp only [rnnOutData]
    rw [List.getElem_map]
    rw [← List.getD_eq_getElem (invert_permutation p) 0
      (by rwa [invert_permutation_length])]
    rw [invert_permutation_getD hp j h1]
    have hmemj : j ∈ p := hp.mem_iff.2 (List.mem_range.2 h1)
    have hidx : p.indexOf j < p.length := List.indexOf_lt_length.2 hmemj
    rw [rnnInputsData, List.getD_eq_getElem _ _ (by rwa [List.length_map]), List.getElem_map]
    rw [List.getD_eq_getElem _ _ (by rw [List.getElem_indexOf hidx]; omega)]
    congr 1
    exact List.getElem_indexOf hidx

theorem dones_select_inds_perm (N : ℕ) (dones : List (List Bool))
    (hrows : ∀ r ∈ dones, r.length = N) (info : PackInfo)
    (h : build_pack_info_from_dones N dones = Except.ok info) :
    info.select_inds.Perm (List.range (dones.length * N)) := by
  rw [build_pack_info_from_dones] at h
  obtain ⟨E, S, hE, hS, hnd, hne, hinfo⟩ := build_ok_inv h
  have hklen := dones_sortKeys_length dones.length N dones rfl hrows E S
  subst hinfo
  rw [packResult_select_inds]
  have hperm := selectInds_perm
    (uniquifyEids ((cumsumRows (List.replicate N 0) dones).flatten)
      ((List.replicate dones.length (List.range N)).flatten) E)
    (sortKeysOf
      (uniquifyEids ((cumsumRows (List.replicate N 0) dones).flatten)
        ((List.replicate dones.length (List.range N)).flatten) E)
      (((List.range dones.length).map (fun t => List.replicate N t)).flatten) S)
  rw [hklen] at hperm
  exact hperm


theorem numSeqs_char (eids sortKeys : List ℕ) :
    numSeqsAtStepOf eids sortKeys =
      (List.range ((seqLengthsOf eids sortKeys).headD 0)).map
        (countGt (seqLengthsOf eids sortKeys)) := by
  rw [numSeqsAtStepOf,
    packLoop_char _ _ (seqLengths_desc eids sortKeys) (seqLengths_pos eids sortKeys)]

theorem numSeqs_nonincreasing (eids sortKeys : List ℕ) :
    (numSeqsAtStepOf eids sortKeys).Pairwise (fun a b => b ≤ a) := by
  rw [numSeqs_char, List.pairwise_map]
  have hr : (List.range ((seqLengthsOf eids sortKeys).headD 0)).Pairwise (· < ·) :=
    List.pairwise_lt_range _
  refine hr.imp ?_
  intro i j hij
  apply List.countP_mono_left
  intro x _ hx
  simp only [decide_eq_true_eq] at *
  omega

theorem seqLengths_ne_nil {eids sortKeys : List ℕ} (hne : seqTriples eids sortKeys ≠ []) :
    seqLengthsOf eids sortKeys ≠ [] := by
  rw [seqLengthsOf]
  simpa using hne

theorem numSeqs_head (eids sortKeys : List ℕ) (hne : seqTriples eids sortKeys ≠ []) :
    (numSeqsAtStepOf eids sortKeys).getD 0 0 = (seqLengthsOf eids sortKeys).length := by
  have hLne := seqLengths_ne_nil hne
  have hM : 0 < (seqLengthsOf eids sortKeys).headD 0 := by
    cases hL : seqLengthsOf eids sortKeys with
    | nil => exact absurd hL hLne
    | cons a L' =>
      have := seqLengths_pos eids sortKeys a (by rw [hL]; exact List.mem_cons_self _ _)
      simpa using this
  rw [numSeqs_char]
  rw [List.getD_eq_getElem _ _ (by simpa using hM)]
  rw [List.getElem_map, List.getElem_range]
  rw [countGt, List.countP_eq_length.2 (fun x hx => by
    simpa using seqLengths_pos eids sortKeys x hx)]


theorem npMax_mem : ∀ (l : List ℕ), l ≠ [] → npMax l ∈ l
  | [], h => absurd rfl h
  | x :: xs, _ => by
    rw [npMax, List.foldr_cons]
    cases xs with
    | nil => simp [npMax]
    | cons y ys =>
      have ih := npMax_mem (y :: ys) (by simp)
      rcases max_choice x ((y :: ys).foldr max 0) with h1 | h1 <;> rw [h1]
      · exact List.mem_cons_self _ _
      · exact List.mem_cons_of_mem _ ih

theorem foldr_min_mem : ∀ (xs : List ℕ) (x : ℕ), xs.foldr min x ∈ x :: xs
  | [], x => List.mem_cons_self _ _
  | y :: ys, x => by
    rw [List.foldr_cons]
    have ih := foldr_min_mem ys x
    rcases min_choice y (ys.foldr min x) with h1 | h1 <;> rw [h1]
    · exact List.mem_cons_of_mem _ (List.mem_cons_self _ _)
    · rcases List.mem_cons.1 ih with h2 | h2
      · rw [h2]
        exact List.mem_cons_self _ _
      · exact List.mem_cons_of_mem _ (List.mem_cons_of_mem _ h2)

theorem npMin_mem : ∀ (l : List ℕ), l ≠ [] → npMin l ∈ l
  | [], h => absurd rfl h
  | x :: xs, _ => by
    rw [npMin]
    exact foldr_min_mem xs x

theorem count_true_map {α : Type} (g : α → Bool) (l : List α) :
    (l.map g).count true = l.countP g := by
  rw [List.count, List.countP_map]
  apply List.countP_congr
  intro x _
  simp

theorem countP_split (W : List (ℕ × ℕ)) (q r : ℕ × ℕ → Bool) :
    W.countP q = W.countP (fun p => q p && r p) + W.countP (fun p => q p && !r p) := by
  induction W with
  | nil => rfl
  | cons a W ih =>
    rw [List.countP_cons, List.countP_cons, List.countP_cons, ih]
    cases hq : q a <;> cases hr : r a <;> simp [hq, hr] <;> omega

theorem countP_partition : ∀ (E : List ℕ) (W : List (ℕ × ℕ)) (q : ℕ × ℕ → Bool),
    E.Nodup → (∀ p ∈ W, p.1 ∈ E) →
    W.countP q = (E.map (fun e => W.countP (fun p => q p && decide (p.1 = e)))).sum
  | [], W, q, _, hcov => by
    cases W with
    | nil => rfl
    | cons p W => exact absurd (hcov p (List.mem_cons_self _ _)) (by simp)
  | e :: E', W, q, hnd, hcov => by
    rw [List.map_cons, List.sum_cons]
    rw [countP_split W q (fun p => decide (p.1 = e))]
    have hW' := countP_partition E' (W.filter (fun p => !decide (p.1 = e))) q
      (List.nodup_cons.1 hnd).2
      (fun p hp => by
        have hmem := List.mem_filter.1 hp
        rcases hcov p hmem.1 with hcE
        rcases List.mem_cons.1 hcE with h1 | h1
        · exfalso
          have := hmem.2
          simp [h1] at this
        · exact h1)
    have heq : ∀ e' ∈ E',
        (W.filter (fun p => !decide (p.1 = e))).countP (fun p => q p && decide (p.1 = e')) =
          W.countP (fun p => q p && decide (p.1 = e') && !decide (p.1 = e)) := by
      intro e' _
      rw [List.countP_filter]
    have heq2 : ∀ e' ∈ E',
        W.countP (fun p => q p && decide (p.1 = e') && !decide (p.1 = e)) =
          W.countP (fun p => q p && decide (p.1 = e')) := by
      intro e' he'
      have hne : e' ≠ e := by
        intro hc
        exact (List.nodup_cons.1 hnd).1 (hc ▸ he')
      apply List.countP_congr
      intro p _
      simp only [Bool.and_eq_true, Bool.not_eq_true', decide_eq_true_eq,
        decide_eq_false_iff_not]
      constructor
      · intro hx
        exact hx.1
      · intro hx
        refine ⟨hx, ?_⟩
        intro hc
        exact hne (by rw [← hx.2, hc])
    have hcount : W.countP (fun p => q p && !decide (p.1 = e)) =
        (W.filter (fun p => !decide (p.1 = e))).countP q := by
      rw [List.countP_filter]
    rw [hcount, hW']
    refine congrArg _ (congrArg List.sum (List.map_congr_left ?_))
    intro e' he'
    rw [heq e' he', heq2 e' he']

theorem sublist_map_filter_snd (W : List (ℕ × ℕ)) (r : ℕ × ℕ → Bool) :
    ((W.filter r).map Prod.snd).Sublist (W.map Prod.snd) :=
  (List.filter_sublist W).map Prod.snd

theorem countP_class_one (sel : List ℕ → ℕ)
    (hsel : ∀ l : List ℕ, l ≠ [] → sel l ∈ l) (W : List (ℕ × ℕ))
    (hnd : (W.map Prod.snd).Nodup) (e : ℕ) (p0 : ℕ × ℕ) (hp0 : p0 ∈ W)
    (hp0e : p0.1 = e) :
    W.countP (fun p =>
      decide (p.2 = sel ((W.filter (fun q => decide (q.1 = p.1))).map Prod.snd)) &&
      decide (p.1 = e)) = 1 := by
  have hCne : W.filter (fun q => decide (q.1 = e)) ≠ [] := by
    intro hc
    have hm : p0 ∈ W.filter (fun q => decide (q.1 = e)) :=
      List.mem_filter.2 ⟨hp0, by simp [hp0e]⟩
    rw [hc] at hm
    simp at hm
  have hvne : (W.filter (fun q => decide (q.1 = e))).map Prod.snd ≠ [] := by
    simpa using hCne
  set v := sel ((W.filter (fun q => decide (q.1 = e))).map Prod.snd) with hv
  have hstep1 : W.countP (fun p =>
      decide (p.2 = sel ((W.filter (fun q => decide (q.1 = p.1))).map Prod.snd)) &&
      decide (p.1 = e)) =
      W.countP (fun p => decide (p.2 = v) && decide (p.1 = e)) := by
    apply List.countP_congr
    intro p _
    simp only [Bool.and_eq_true, decide_eq_true_eq]
    constructor
    · rintro ⟨h1, h2⟩
      rw [h2] at h1
      exact ⟨h1, h2⟩
    · rintro ⟨h1, h2⟩
      rw [h2]
      rw [hv] at h1
      exact ⟨h1, rfl⟩
  rw [hstep1, ← List.countP_filter]
  have hmapcnt : (W.filter (fun q => decide (q.1 = e))).countP
      (fun p => decide (p.2 = v)) =
      ((W.filter (fun q => decide (q.1 = e))).map Prod.snd).countP
        (fun x => decide (x = v)) := by
    rw [List.countP_map]
    rfl
  have hvmem : v ∈ (W.filter (fun q => decide (q.1 = e))).map Prod.snd :=
    hsel _ hvne
  have hCnd : ((W.filter (fun q => decide (q.1 = e))).map Prod.snd).Nodup :=
    hnd.sublist (sublist_map_filter_snd W _)
  have hcnt : ((W.filter (fun q => decide (q.1 = e))).map Prod.snd).countP
      (fun x => decide (x = v)) =
      ((W.filter (fun q => decide (q.1 = e))).map Prod.snd).count v := by
    rw [List.count]
    apply List.countP_congr
    intro x _
    simp
  rw [hmapcnt, hcnt]
  exact List.count_eq_one_of_mem hCnd hvmem

theorem mask_count (sel : List ℕ → ℕ)
    (hsel : ∀ l : List ℕ, l ≠ [] → sel l ∈ l) (W : List (ℕ × ℕ))
    (hnd : (W.map Prod.snd).Nodup) :
    W.countP (fun p =>
      decide (p.2 = sel ((W.filter (fun q => decide (q.1 = p.1))).map Prod.snd))) =
      ((W.map Prod.fst).dedup).length := by
  rw [countP_partition ((W.map Prod.fst).dedup) W _ (List.nodup_dedup _)
    (fun p hp => List.mem_dedup.2 (List.mem_map.2 ⟨p, hp, rfl⟩))]
  have hone : ∀ e ∈ (W.map Prod.fst).dedup,
      W.countP (fun p =>
        decide (p.2 = sel ((W.filter (fun q => decide (q.1 = p.1))).map Prod.snd)) &&
        decide (p.1 = e)) = 1 := by
    intro e he
    obtain ⟨p0, hp0, hp0e⟩ := List.mem_map.1 (List.mem_dedup.1 he)
    exact countP_class_one sel hsel W hnd e p0 hp0 hp0e
  rw [List.map_congr_left hone]
  simp

theorem image_mod_card (V : List ℕ) (N : ℕ) (hN : 1 ≤ N)
    (hcov : ∀ e, e < N → ∃ v ∈ V, v % N = e) :
    ((V.map (fun v => v % N)).dedup).length = N := by
  rw [← List.card_toFinset]
  have hset : (V.map (fun v => v % N)).toFinset = Finset.range N := by
    ext e
    simp only [List.mem_toFinset, Finset.mem_range, List.mem_map]
    constructor
    · rintro ⟨v, _, rfl⟩
      exact Nat.mod_lt _ (by omega)
    · intro he
      obtain ⟨v, hv, hvm⟩ := hcov e he
      exact ⟨v, hv, hvm⟩
  rw [hset, Finset.card_range]

theorem getD_zipWith {f : ℕ → ℕ → ℕ} {l1 l2 : List ℕ} {i : ℕ}
    (h : i < (l1.zipWith f l2).length) :
    (l1.zipWith f l2).getD i 0 = f (l1.getD i 0) (l2.getD i 0) := by
  have h2 := h
  rw [List.length_zipWith] at h2
  rw [List.getD_eq_getElem _ _ h, List.getElem_zipWith,
    List.getD_eq_getElem _ _ (by omega), List.getD_eq_getElem _ _ (by omega)]

theorem sortedEids_sorted (eids steps : List ℕ) (S : ℕ)
    (hS : npMaxArr steps = some S) :
    (sortedEidsOf eids (sortKeysOf eids steps S)).Pairwise (· ≤ ·) := by
  rw [sortedEidsOf, List.pairwise_map]
  refine (argsort_sorted (sortKeysOf eids steps S)).imp_of_mem ?_
  intro i j hi hj hij
  have hiL := argsort_mem_lt hi
  have hjL := argsort_mem_lt hj
  rw [sortKeysOf] at hij hiL hjL
  rw [getD_zipWith hiL, getD_zipWith hjL] at hij
  have hidx := hiL
  have hjdx := hjL
  rw [List.length_zipWith] at hidx hjdx
  have hsi : steps.getD i 0 ≤ S := by
    refine (npMaxArr_spec hS).2 _ ?_
    rw [List.getD_eq_getElem _ _ (by omega)]
    exact List.getElem_mem _
  have hsj : steps.getD j 0 ≤ S := by
    refine (npMaxArr_spec hS).2 _ ?_
    rw [List.getD_eq_getElem _ _ (by omega)]
    exact List.getElem_mem _
  by_contra hc
  push_neg at hc
  have h1 : (eids.getD j 0 + 1) * (S + 1) ≤ eids.getD i 0 * (S + 1) :=
    Nat.mul_le_mul_right _ (by omega)
  rw [Nat.add_mul, Nat.one_mul] at h1
  omega

theorem runs_flatten_eq (es : List ℕ) (hs : es.Pairwise (· ≤ ·)) :
    (npUniqueCounts es).flatMap (fun p => List.replicate p.2 p.1) = es := by
  rw [npUniqueCounts, rle_flatten, List.Sorted.insertionSort_eq hs]

theorem seqTriples_start_val (eids keys : List ℕ)
    (hes : (sortedEidsOf eids keys).Pairwise (· ≤ ·)) :
    ∀ p ∈ seqTriples eids keys, (sortedEidsOf eids keys).getD p.2.1 0 = p.1 := by
  intro p hp
  have hmem := (seqTriples_perm eids keys).mem_iff.1 hp
  have h := triplesAux_getD_flat (npUniqueCounts (sortedEidsOf eids keys)) 0 [] rfl
    (rle_counts_pos _) p hmem
  rw [List.nil_append, runs_flatten_eq _ hes] at h
  exact h

theorem seqTriples_start_lt (eids keys : List ℕ) :
    ∀ p ∈ seqTriples eids keys, p.2.1 < (sortedEidsOf eids keys).length := by
  intro p hp
  have hmem := (seqTriples_perm eids keys).mem_iff.1 hp
  have hb := triplesAux_bounds _ 0 p hmem
  have hpos := triplesAux_pos _ 0 (rle_counts_pos _) p hmem
  have hsum : ((npUniqueCounts (sortedEidsOf eids keys)).map Prod.snd).sum =
      (sortedEidsOf eids keys).length := by
    rw [npUniqueCounts, sum_counts_rle, List.length_insertionSort]
  omega

theorem seqTriples_vals_nodup (eids keys : List ℕ) :
    ((seqTriples eids keys).map (fun p => p.1)).Nodup := by
  have hperm := (seqTriples_perm eids keys).map (fun p => p.1)
  refine hperm.nodup_iff.2 ?_
  rw [triplesAux_map_fst]
  exact (npUniqueVals_sorted (sortedEidsOf eids keys)).imp (fun h => Nat.ne_of_lt h)

theorem sortedEids_perm_eids (eids keys : List ℕ) (hlen : eids.length = keys.length) :
    (sortedEidsOf eids keys).Perm eids := by
  rw [sortedEidsOf]
  refine perm_map_getD eids 0 _ ?_
  rw [hlen]
  exact argsort_perm keys

theorem seqStarts_eq (eids keys : List ℕ) (hne : seqTriples eids keys ≠ []) :
    seqStartsOf eids keys =
      (seqTriples eids keys).map (fun p => (argsort keys).getD p.2.1 0) := by
  have hLne := seqLengths_ne_nil hne
  have hM : 1 ≤ (seqLengthsOf eids keys).headD 0 := by
    cases hL : seqLengthsOf eids keys with
    | nil => exact absurd hL hLne
    | cons a L' =>
      have := seqLengths_pos eids keys a (by rw [hL]; exact List.mem_cons_self _ _)
      simpa using this
  have hsplit : List.range ((seqLengthsOf eids keys).headD 0) =
      0 :: List.range' 1 ((seqLengthsOf eids keys).headD 0 - 1) := by
    rw [List.range_eq_range']
    have h := List.range'_append_1 0 1 ((seqLengthsOf eids keys).headD 0 - 1)
    rw [Nat.zero_add, show ((seqLengthsOf eids keys).headD 0 - 1) + 1 =
      (seqLengthsOf eids keys).headD 0 by omega] at h
    rw [← h]
    rfl
  have hc0 : countGt (seqLengthsOf eids keys) 0 = (seqLengthsOf eids keys).length :=
    List.countP_eq_length.2 (fun x hx => by simpa using seqLengths_pos eids keys x hx)
  have hSSlen : (seqStartsSortedOf eids keys).length = (seqLengthsOf eids keys).length := by
    rw [seqStartsSortedOf, seqLengthsOf, List.length_map, List.length_map]
  have hmap0 : (seqStartsSortedOf eids keys).map (fun s => s + 0) =
      seqStartsSortedOf eids keys := by
    simp
  have hchar := packLoop_char (seqStartsSortedOf eids keys) (seqLengthsOf eids keys)
    (seqLengths_desc eids keys) (seqLengths_pos eids keys)
  have hsel1 : (packLoop (seqStartsSortedOf eids keys) (seqLengthsOf eids keys)).1 =
      seqStartsSortedOf eids keys ++
        (List.range' 1 ((seqLengthsOf eids keys).headD 0 - 1)).flatMap
          (fun t => ((seqStartsSortedOf eids keys).take
            (countGt (seqLengthsOf eids keys) t)).map (fun s => s + t)) := by
    have h0 : (packLoop (seqStartsSortedOf eids keys) (seqLengthsOf eids keys)).1 =
        (List.range ((seqLengthsOf eids keys).headD 0)).flatMap
          (fun t => ((seqStartsSortedOf eids keys).take
            (countGt (seqLengthsOf eids keys) t)).map (fun s => s + t)) :=
      congrArg Prod.fst hchar
    rw [h0, hsplit, List.flatMap_cons, hc0,
      List.take_of_length_le (Nat.le_of_eq hSSlen), hmap0]
  rw [seqStartsOf, numSeqs_head eids keys hne, selectIndsOf, ← List.map_take, hsel1,
    List.take_left' hSSlen]
  rw [seqStartsSortedOf, List.map_map]
  simp [Function.comp]

theorem mem_flatten_replicate_range {T N x : ℕ} (hT : 1 ≤ T) :
    x ∈ (List.replicate T (List.range N)).flatten ↔ x < N := by
  rw [List.mem_flatten]
  constructor
  · rintro ⟨l, hl, hx⟩
    rw [List.eq_of_mem_replicate hl] at hx
    exact List.mem_range.1 hx
  · intro hx
    exact ⟨List.range N, List.mem_replicate.2 ⟨by omega, rfl⟩, List.mem_range.2 hx⟩

theorem dones_envMax {T N E : ℕ} (hT : 1 ≤ T) (hN : 1 ≤ N)
    (hE : npMaxArr ((List.replicate T (List.range N)).flatten) = some E) :
    E + 1 = N := by
  have hspec := npMaxArr_spec hE
  have h1 : E < N := (mem_flatten_replicate_range hT).1 hspec.1
  have h2 : N - 1 ≤ E :=
    hspec.2 _ ((mem_flatten_replicate_range hT).2 (by omega))
  omega

theorem envD_getD_first_row {T N e : ℕ} (hT : 1 ≤ T) (he : e < N) :
    ((List.replicate T (List.range N)).flatten).getD e 0 = e := by
  cases T with
  | zero => omega
  | succ T' =>
    rw [List.replicate_succ, List.flatten_cons]
    rw [List.getD_eq_getElem _ _ (by
      rw [List.length_append, List.length_range]
      omega)]
    rw [List.getElem_append_left (by rw [List.length_range]; omega)]
    apply List.getElem_range

theorem eids_getD_mod (epiD envD : List ℕ) (E i M : ℕ) (hM : M = E + 1)
    (hlen : i < (epiD.zipWith (fun e v => e * (E + 1) + v) envD).length)
    (hle : envD.getD i 0 ≤ E) :
    (epiD.zipWith (fun e v => e * (E + 1) + v) envD).getD i 0 % M =
      envD.getD i 0 := by
  subst hM
  rw [getD_zipWith hlen, Nat.mul_comm, Nat.mul_add_mod, Nat.mod_eq_of_lt (by omega)]

theorem pairsEV_char (eids envD keys : List ℕ)
    (hne : seqTriples eids keys ≠ [])
    (hes : (sortedEidsOf eids keys).Pairwise (· ≤ ·)) (N : ℕ)
    (hmod : ∀ i, i < keys.length → envD.getD i 0 = eids.getD i 0 % N) :
    pairsEVOf eids envD keys =
      (seqTriples eids keys).map (fun p => (p.1 % N, p.1)) := by
  rw [pairsEVOf, seqStarts_eq eids keys hne, List.map_map, List.map_map, List.zip_map']
  apply List.map_congr_left
  intro p hp
  simp only [Function.comp]
  have hs := seqTriples_start_lt eids keys p hp
  have hval := seqTriples_start_val eids keys hes p hp
  have hsl : p.2.1 < (argsort keys).length := by
    rw [argsort_length, ← sortedEids_length eids keys]
    exact hs
  have horig_mem : (argsort keys).getD p.2.1 0 ∈ argsort keys := by
    rw [List.getD_eq_getElem _ _ hsl]
    exact List.getElem_mem _
  have horig_lt : (argsort keys).getD p.2.1 0 < keys.length := argsort_mem_lt horig_mem
  have hes_getD : (sortedEidsOf eids keys).getD p.2.1 0 =
      eids.getD ((argsort keys).getD p.2.1 0) 0 := by
    rw [sortedEidsOf, List.getD_eq_getElem _ _ (by rw [List.length_map]; exact hsl),
      List.getElem_map, List.getD_eq_getElem _ _ hsl]
  rw [hes_getD] at hval
  rw [hmod _ horig_lt, hval]

theorem mask_counts_generic (eids envD keys : List ℕ) (N : ℕ)
    (hne : seqTriples eids keys ≠ [])
    (hes : (sortedEidsOf eids keys).Pairwise (· ≤ ·))
    (hmod : ∀ i, i < keys.length → envD.getD i 0 = eids.getD i 0 % N)
    (hN : 1 ≤ N)
    (hcov : ∀ e, e < N → ∃ v ∈ (seqTriples eids keys).map (fun p => p.1), v % N = e) :
    (lastMaskOf eids envD keys).count true = N ∧
    (firstMaskOf eids envD keys).count true = N := by
  have hW := pairsEV_char eids envD keys hne hes N hmod
  have hsndeq : (((seqTriples eids keys).map (fun p => (p.1 % N, p.1))).map Prod.snd) =
      (seqTriples eids keys).map (fun p => p.1) := by
    rw [List.map_map]
    exact List.map_congr_left (fun p _ => rfl)
  have hndW : ((((seqTriples eids keys).map (fun p => (p.1 % N, p.1)))).map Prod.snd).Nodup := by
    rw [hsndeq]
    exact seqTriples_vals_nodup eids keys
  have hfst : (((seqTriples eids keys).map (fun p => (p.1 % N, p.1))).map Prod.fst) =
      ((seqTriples eids keys).map (fun p => p.1)).map (fun v => v % N) := by
    rw [List.map_map, List.map_map]
    exact List.map_congr_left (fun p _ => rfl)
  constructor
  · simp only [lastMaskOf]
    rw [hW, count_true_map, mask_count npMax npMax_mem _ hndW, hfst,
      image_mod_card _ N hN hcov]
  · simp only [firstMaskOf]
    rw [hW, count_true_map, mask_count npMin npMin_mem _ hndW, hfst,
      image_mod_card _ N hN hcov]

/-- C8: for every valid dones matrix of shape (T, N) in which every slot has
at least one step (T ≥ 1), the packer flags exactly N sequences with
`last_sequence_in_batch_mask` (one per environment slot, that slot's latest
episode segment) and exactly N sequences with
`first_sequence_in_batch_mask` (one per environment slot, the slot's
earliest segment). -/
theorem claim_C8_boundary_flags (T N : ℕ) (hT : 1 ≤ T) (hN : 1 ≤ N)
    (dones : List (List Bool)) (hlen : dones.length = T)
    (hrows : ∀ r ∈ dones, r.length = N) (info : PackInfo)
    (h : build_pack_info_from_dones N dones = Except.ok info) :
    info.last_sequence_in_batch_mask.count true = N ∧
    info.first_sequence_in_batch_mask.count true = N := by
  subst hlen
  rw [build_pack_info_from_dones] at h
  obtain ⟨E, S, hE, hS, hnd, hne, hinfo⟩ := build_ok_inv h
  subst hinfo
  rw [packResult_last_mask, packResult_first_mask]
  have hEN : E + 1 = N := dones_envMax hT hN hE
  have henvlen : ((List.replicate dones.length (List.range N)).flatten).length = dones.length * N :=
    dones_environment_ids_length dones.length N
  have hepilen : ((cumsumRows (List.replicate N 0) dones).flatten).length = dones.length * N :=
    dones_episode_ids_length N dones hrows
  have heidslen : (uniquifyEids ((cumsumRows (List.replicate N 0) dones).flatten) ((List.replicate dones.length (List.range N)).flatten) E).length = dones.length * N := by
    rw [uniquifyEids, List.length_zipWith, hepilen, henvlen, Nat.min_self]
  have hklen := dones_sortKeys_length dones.length N dones rfl hrows E S
  have hmod : ∀ i, i < (sortKeysOf (uniquifyEids ((cumsumRows (List.replicate N 0) dones).flatten) ((List.replicate dones.length (List.range N)).flatten) E) (((List.range dones.length).map (fun t => List.replicate N t)).flatten) S).length →
      ((List.replicate dones.length (List.range N)).flatten).getD i 0 = (uniquifyEids ((cumsumRows (List.replicate N 0) dones).flatten) ((List.replicate dones.length (List.range N)).flatten) E).getD i 0 % N := by
    intro i hi
    rw [hklen] at hi
    have henvle : ((List.replicate dones.length (List.range N)).flatten).getD i 0 ≤ E := by
      refine (npMaxArr_spec hE).2 _ ?_
      rw [List.getD_eq_getElem _ _ (by rw [henvlen]; omega)]
      exact List.getElem_mem _
    have h5 := eids_getD_mod ((cumsumRows (List.replicate N 0) dones).flatten)
      ((List.replicate dones.length (List.range N)).flatten) E i N hEN.symm
      (by rw [List.length_zipWith, hepilen, henvlen]; omega) henvle
    rw [uniquifyEids]
    exact h5.symm
  have hes := sortedEids_sorted (uniquifyEids ((cumsumRows (List.replicate N 0) dones).flatten) ((List.replicate dones.length (List.range N)).flatten) E) (((List.range dones.length).map (fun t => List.replicate N t)).flatten) S hS
  have hcov : ∀ e, e < N →
      ∃ v ∈ (seqTriples (uniquifyEids ((cumsumRows (List.replicate N 0) dones).flatten) ((List.replicate dones.length (List.range N)).flatten) E) (sortKeysOf (uniquifyEids ((cumsumRows (List.replicate N 0) dones).flatten) ((List.replicate dones.length (List.range N)).flatten) E) (((List.range dones.length).map (fun t => List.replicate N t)).flatten) S)).map (fun p => p.1), v % N = e := by
    intro e he
    have heT : e < dones.length * N := by
      have : N ≤ dones.length * N := Nat.le_mul_of_pos_left N (by omega)
      omega
    refine ⟨(uniquifyEids ((cumsumRows (List.replicate N 0) dones).flatten) ((List.replicate dones.length (List.range N)).flatten) E).getD e 0, ?_, ?_⟩
    · have hmem : (uniquifyEids ((cumsumRows (List.replicate N 0) dones).flatten) ((List.replicate dones.length (List.range N)).flatten) E).getD e 0 ∈ (uniquifyEids ((cumsumRows (List.replicate N 0) dones).flatten) ((List.replicate dones.length (List.range N)).flatten) E) := by
        rw [List.getD_eq_getElem _ _ (by rw [heidslen]; omega)]
        exact List.getElem_mem _
      have h2 := (sortedEids_perm_eids (uniquifyEids ((cumsumRows (List.replicate N 0) dones).flatten) ((List.replicate dones.length (List.range N)).flatten) E) (sortKeysOf (uniquifyEids ((cumsumRows (List.replicate N 0) dones).flatten) ((List.replicate dones.length (List.range N)).flatten) E) (((List.range dones.length).map (fun t => List.replicate N t)).flatten) S)
        (by rw [heidslen, hklen])).mem_iff.2 hmem
      have h3 : (uniquifyEids ((cumsumRows (List.replicate N 0) dones).flatten) ((List.replicate dones.length (List.range N)).flatten) E).getD e 0 ∈
          (triplesAux 0 (npUniqueCounts (sortedEidsOf (uniquifyEids ((cumsumRows (List.replicate N 0) dones).flatten) ((List.replicate dones.length (List.range N)).flatten) E) (sortKeysOf (uniquifyEids ((cumsumRows (List.replicate N 0) dones).flatten) ((List.replicate dones.length (List.range N)).flatten) E) (((List.range dones.length).map (fun t => List.replicate N t)).flatten) S)))).map
            (fun t => t.1) := by
        rw [triplesAux_map_fst]
        exact mem_npUniqueVals.2 h2
      exact ((seqTriples_perm (uniquifyEids ((cumsumRows (List.replicate N 0) dones).flatten) ((List.replicate dones.length (List.range N)).flatten) E) (sortKeysOf (uniquifyEids ((cumsumRows (List.replicate N 0) dones).flatten) ((List.replicate dones.length (List.range N)).flatten) E) (((List.range dones.length).map (fun t => List.replicate N t)).flatten) S)).map (fun t => t.1)).mem_iff.2 h3
    · have h4 := hmod e (by rw [hklen]; omega)
      rw [← h4]
      exact envD_getD_first_row hT he
  exact mask_counts_generic (uniquifyEids ((cumsumRows (List.replicate N 0) dones).flatten) ((List.replicate dones.length (List.range N)).flatten) E) ((List.replicate dones.length (List.range N)).flatten) (sortKeysOf (uniquifyEids ((cumsumRows (List.replicate N 0) dones).flatten) ((List.replicate dones.length (List.range N)).flatten) E) (((List.range dones.length).map (fun t => List.replicate N t)).flatten) S) N hne hes hmod hN hcov

theorem claim_C8_witness :
    ([true] : List Bool).count true = 1 ∧ ([true] : List Bool).count true = 1 :=
  claim_C8_boundary_flags 1 1 (by omega) (by omega) [[false]] rfl (by decide)
    ⟨[0], [1], [0], [1], [0], [true], [true], [0], [0]⟩ rfl

/-- C3: for every valid dones matrix of shape (T, N) with T ≥ 1 and N ≥ 1, the
`select_inds` array returned by the packer is a permutation of the integers
`0 .. T*N-1`: every index appears exactly once. -/
theorem claim_C3_select_inds_permutation (T N : ℕ) (_hT : 1 ≤ T) (_hN : 1 ≤ N)
    (dones : List (List Bool)) (hlen : dones.length = T)
    (hrows : ∀ r ∈ dones, r.length = N) (info : PackInfo)
    (h : build_pack_info_from_dones N dones = Except.ok info) :
    info.select_inds.Perm (List.range (T * N)) := by
  subst hlen
  exact dones_select_inds_perm N dones hrows info h

theorem claim_C3_witness :
    build_pack_info_from_dones 1 [[false], [true], [false], [false]] =
      Except.ok ⟨[1, 0, 2, 3], [2, 1, 1], [1, 0], [3, 1], [0, 0],
        [true, false], [false, true], [0], [1]⟩ ∧
    ([1, 0, 2, 3] : List ℕ).Perm (List.range (4 * 1)) := by
  refine ⟨rfl, ?_⟩
  exact claim_C3_select_inds_permutation 4 1 (by omega) (by omega)
    [[false], [true], [false], [false]] rfl (by decide)
    ⟨[1, 0, 2, 3], [2, 1, 1], [1, 0], [3, 1], [0, 0],
      [true, false], [false, true], [0], [1]⟩ rfl

/-- C1: round-trip identity of the recurrent state router.  For every dones
matrix with T in {1,2,5} and N in {1,3,4} and any placement of true values,
and every `(T*N, feature)` tensor `x` (rows abstracted to `α`), reordering
`x` by `select_inds` as in `build_rnn_inputs` and inverting that reordering
as in `build_rnn_out_from_seq` (an identity recurrent core in between)
returns `x` unchanged. -/
theorem claim_C1_roundtrip_identity {α : Type} (d : α) (T N : ℕ)
    (_hT : T = 1 ∨ T = 2 ∨ T = 5) (_hN : N = 1 ∨ N = 3 ∨ N = 4)
    (dones : List (List Bool)) (hlen : dones.length = T)
    (hrows : ∀ r ∈ dones, r.length = N)
    (x : List α) (hx : x.length = T * N) (info : PackInfo)
    (h : build_pack_info_from_dones N dones = Except.ok info) :
    rnnOutData d info.select_inds (rnnInputsData d info.select_inds x) = x := by
  subst hlen
  have hperm := dones_select_inds_perm N dones hrows info h
  have hlen2 : info.select_inds.length = dones.length * N := by
    simpa using hperm.length_eq
  apply pack_unpack_roundtrip
  · rw [hlen2]
    exact hperm
  · rw [hx, hlen2]

theorem claim_C1_witness :
    rnnOutData (0 : ℕ) [0] (rnnInputsData (0 : ℕ) [0] [7]) = [7] :=
  claim_C1_roundtrip_identity 0 1 1 (Or.inl rfl) (Or.inl rfl) [[false]] rfl
    (by decide) [7] rfl ⟨[0], [1], [0], [1], [0], [true], [true], [0], [0]⟩ rfl

/-- C2 counterexample: on the dones matrix with T=4, N=1 and dones[1,0]=true,
the packer does NOT produce two segments of lengths 2 and 2: the inclusive
`np.cumsum` makes the done step start the new episode, so the segments have
lengths 1 and 3. -/
theorem claim_C2_counterexample :
    ¬ ∃ info, build_pack_info_from_dones 1 [[false], [true], [false], [false]] =
        Except.ok info ∧ info.sequence_lengths.Perm [2, 2] := by
  rintro ⟨info, hinfo, hperm⟩
  have h0 : build_pack_info_from_dones 1 [[false], [true], [false], [false]] =
      Except.ok ⟨[1, 0, 2, 3], [2, 1, 1], [1, 0], [3, 1], [0, 0],
        [true, false], [false, true], [0], [1]⟩ := rfl
  rw [h0] at hinfo
  have hi := Except.ok.inj hinfo
  rw [← hi] at hperm
  have h3 := hperm.mem_iff.1 (show (3 : ℕ) ∈ [3, 1] by decide)
  simp at h3

/-- C2 amended: for dones[1,0]=true, T=4, N=1, the packer produces exactly two
episode segments for slot 0, of lengths 1 and 3 (the episode counter
increments AT the done step, so the done step starts the new episode); in
packed (descending-length) order the segments are [3, 1],
`first_sequence_in_batch_mask` is true on the time-earliest (length-1)
segment and `last_sequence_in_batch_mask` on the latest (length-3) one. -/
theorem claim_C2_packing :
    build_pack_info_from_dones 1 [[false], [true], [false], [false]] =
      Except.ok ⟨[1, 0, 2, 3], [2, 1, 1], [1, 0], [3, 1], [0, 0],
        [true, false], [false, true], [0], [1]⟩ := rfl

/-- C4 counterexample: with T=2, N=1 and a done at step 1 (every slot has at
least one step), `num_seqs_at_step[0]` is the number of episode segments (2),
not N = 1. -/
theorem claim_C4_counterexample :
    ¬ ∀ info, build_pack_info_from_dones 1 [[false], [true]] = Except.ok info →
      info.num_seqs_at_step.getD 0 0 = 1 := by
  intro hc
  have := hc ⟨[0, 1], [2], [0, 1], [1, 1], [0, 0], [false, true], [true, false], [1], [0]⟩ rfl
  simp at this

/-- C4 amended: for every valid dones matrix, `num_seqs_at_step` is
non-increasing, and `num_seqs_at_step[0]` equals the total number of episode
segments in the window (`sequence_lengths.length`), which is N only when no
mid-window done creates an extra segment. -/
theorem claim_C4_num_seqs_monotone (T N : ℕ) (dones : List (List Bool))
    (_hlen : dones.length = T) (_hrows : ∀ r ∈ dones, r.length = N) (info : PackInfo)
    (h : build_pack_info_from_dones N dones = Except.ok info) :
    info.num_seqs_at_step.Pairwise (fun a b => b ≤ a) ∧
    info.num_seqs_at_step.getD 0 0 = info.sequence_lengths.length := by
  rw [build_pack_info_from_dones] at h
  obtain ⟨E, S, hE, hS, hnd, hne, hinfo⟩ := build_ok_inv h
  subst hinfo
  rw [packResult_num_seqs, packResult_seq_lengths]
  exact ⟨numSeqs_nonincreasing _ _, numSeqs_head _ _ hne⟩

theorem claim_C4_witness :
    (([2] : List ℕ).Pairwise (fun a b => b ≤ a)) ∧
    ([2] : List ℕ).getD 0 0 = ([1, 1] : List ℕ).length :=
  claim_C4_num_seqs_monotone 2 1 [[false], [true]] rfl (by decide)
    ⟨[0, 1], [2], [0, 1], [1, 1], [0, 0], [false, true], [true, false], [1], [0]⟩ rfl

/-- C5 counterexample: on duplicate composite sort keys the packer fails with
the bare `assert` (an `AssertionError`), not with anything called
`DataIntegrityError` (no such error type exists in the code). -/
theorem claim_C5_counterexample :
    build_pack_info_from_episode_ids [0, 0] [0, 0] [0, 0] =
      Except.error "AssertionError: np.unique(sort_keys).size == sort_keys.size" ∧
    "AssertionError: np.unique(sort_keys).size == sort_keys.size" ≠
      "DataIntegrityError" :=
  ⟨rfl, by decide⟩

/-- C5 amended: whenever the composite sort keys collide, the packer raises
the `assert np.unique(sort_keys).size == sort_keys.size` `AssertionError`
(never silently merging or dropping records) — but it is a plain
AssertionError, not a `DataIntegrityError`. -/
theorem claim_C5_duplicate_keys_assert (episode_ids environment_ids step_ids : List ℕ)
    (envMax stepMax : ℕ) (hE : npMaxArr environment_ids = some envMax)
    (hS : npMaxArr step_ids = some stepMax)
    (hdup : ¬ (sortKeysOf (uniquifyEids episode_ids environment_ids envMax) step_ids
      stepMax).Nodup) :
    build_pack_info_from_episode_ids episode_ids environment_ids step_ids =
      Except.error "AssertionError: np.unique(sort_keys).size == sort_keys.size" := by
  rw [build_pack_info_from_episode_ids, hE, hS]
  dsimp only
  rw [if_neg hdup]
  rfl

theorem claim_C5_witness :
    build_pack_info_from_episode_ids [0, 0] [0, 0] [0, 0] =
      Except.error "AssertionError: np.unique(sort_keys).size == sort_keys.size" :=
  claim_C5_duplicate_keys_assert [0, 0] [0, 0] [0, 0] 0 0 rfl rfl (by decide)

/-- C6 counterexample: on the empty input (`T*N = 0`) the packer raises the
numpy `ValueError` from `environment_ids.max()` instead of returning an
empty descriptor. -/
theorem claim_C6_counterexample :
    build_pack_info_from_dones 0 [] =
      Except.error "ValueError: zero-size array to reduction operation maximum" ∧
    ¬ ∃ info, build_pack_info_from_dones 0 [] = Except.ok info := by
  refine ⟨rfl, ?_⟩
  rintro ⟨info, hinfo⟩
  rw [show build_pack_info_from_dones 0 [] =
    Except.error "ValueError: zero-size array to reduction operation maximum" from rfl]
    at hinfo
  exact Except.noConfusion hinfo

/-- C6 amended: for every dones matrix with `T*N = 0` the packer raises the
`ValueError` of `max()` on a zero-size array (it does not return an empty
descriptor). -/
theorem claim_C6_empty_input_error (N : ℕ) (dones : List (List Bool))
    (h : dones.length * N = 0) :
    build_pack_info_from_dones N dones =
      Except.error "ValueError: zero-size array to reduction operation maximum" := by
  have henv : ((List.replicate dones.length (List.range N)).flatten) = ([] : List ℕ) := by
    rcases Nat.mul_eq_zero.1 h with h1 | h1
    · rw [h1]
      rfl
    · subst h1
      have : ∀ T : ℕ, (List.replicate T (List.range 0)).flatten = ([] : List ℕ) := by
        intro T
        induction T with
        | zero => rfl
        | succ n ih =>
          rw [List.replicate_succ, List.flatten_cons, ih]
          rfl
      exact this dones.length
  rw [build_pack_info_from_dones, henv]
  rfl

theorem claim_C6_witness :
    build_pack_info_from_dones 0 [] =
      Except.error "ValueError: zero-size array to reduction operation maximum" :=
  claim_C6_empty_input_error 0 [] rfl

end RnnStateEncoder

namespace BatchedEnvModel

theorem foldl_pause_paused : ∀ (ixs : List ℤ) (e : BatchedEnv),
    (ixs.foldl pause_at e).paused = e.paused ++ ixs
  | [], e => by simp
  | i :: ixs, e => by
    rw [List.foldl_cons, foldl_pause_paused ixs]
    simp [pause_at]

theorem foldl_pause_config : ∀ (ixs : List ℤ) (e : BatchedEnv),
    (ixs.foldl pause_at e).num_envs_config = e.num_envs_config
  | [], _ => rfl
  | i :: ixs, e => by
    rw [List.foldl_cons, foldl_pause_config ixs]
    rfl

/-- C7 counterexample: a 5-slot stub controller with two slots paused still
returns `wait_step` components of length 5 (the configured `_num_envs`), not
of length `num_envs = 3`; `pause_at` only touches the `_paused` bookkeeping
list and `wait_step` never consults it. -/
theorem claim_C7_counterexample :
    wait_step (pause_at (pause_at ⟨5, [], false, none, 1⟩ 1) 2) =
      Except.ok ((), List.replicate 5 (0 : ℚ), List.replicate 5 false,
        List.replicate 5 ()) ∧
    num_envs (pause_at (pause_at ⟨5, [], false, none, 1⟩ 1) 2) = 3 ∧
    (List.replicate 5 (0 : ℚ)).length ≠ 3 :=
  ⟨rfl, by decide, by decide⟩

/-- C7 amended: whenever `wait_step` succeeds it returns rewards, dones and
infos whose lengths all equal the configured total environment count
`self._num_envs`, regardless of pausing: paused slots are not excluded from
the outputs. -/
theorem claim_C7_wait_step_lengths (e : BatchedEnv) (obs : Unit) (rewards : List ℚ)
    (dones : List Bool) (infos : List Unit)
    (h : wait_step e = Except.ok (obs, rewards, dones, infos)) :
    rewards.length = e.num_envs_config ∧ dones.length = e.num_envs_config ∧
    infos.length = e.num_envs_config := by
  rw [wait_step] at h
  cases hb : e.bsim with
  | none =>
    rw [hb] at h
    dsimp only at h
    have h' := Except.ok.inj h
    simp only [Prod.mk.injEq] at h'
    obtain ⟨-, h2, h3, h4⟩ := h'
    refine ⟨?_, ?_, ?_⟩ <;> simp [← h2, ← h3, ← h4]
  | some b =>
    rw [hb] at h
    dsimp only at h
    by_cases hr : b.rewards.length = e.num_envs_config
    · rw [if_pos hr] at h
      by_cases hd : b.dones.length = e.num_envs_config
      · rw [if_pos hd] at h
        by_cases hs : e.reward_scale ≠ 1
        · rw [if_pos hs] at h
          have h' := Except.ok.inj h
          simp only [Prod.mk.injEq] at h'
          obtain ⟨-, h2, h3, h4⟩ := h'
          refine ⟨?_, ?_, ?_⟩ <;> simp [← h2, ← h3, ← h4, hr, hd]
        · rw [if_neg hs] at h
          have h' := Except.ok.inj h
          simp only [Prod.mk.injEq] at h'
          obtain ⟨-, h2, h3, h4⟩ := h'
          refine ⟨?_, ?_, ?_⟩ <;> simp [← h2, ← h3, ← h4, hr, hd]
      · rw [if_neg hd] at h
        simp at h
    · rw [if_neg hr] at h
      simp at h

theorem claim_C7_witness :
    (List.replicate 5 (0 : ℚ)).length = 5 ∧ (List.replicate 5 false).length = 5 ∧
    (List.replicate 5 ()).length = 5 :=
  claim_C7_wait_step_lengths ⟨5, [], false, none, 1⟩ () _ _ _ rfl

/-- C9: the claim that `close()` never raises is contradicted by the code in
stub mode (`STUB_BATCH_SIMULATOR`, where `self._bsim` is `None`): the
constructor succeeds with `_is_closed = False` and `_bsim = None`, and the
first `close()` call evaluates `self._bsim.close()` on `None`, raising an
`AttributeError` (every other `_bsim` use in the class is guarded by
`if self._bsim:`; `close` is the single unguarded one, and it is reached
from `__del__` and `__exit__`). -/
theorem claim_C9_close_stub_raises :
    init 5 true ⟨[], []⟩ 1 = Except.ok ⟨5, [], false, none, 1⟩ ∧
    close ⟨5, [], false, none, 1⟩ =
      Except.error "AttributeError: 'NoneType' object has no attribute 'close'" :=
  ⟨rfl, rfl⟩

/-- C10: pause bookkeeping is pure counting with no validation.  After any k
`pause_at` calls since construction (or since the last `resume_all`),
whatever the index arguments (repeated or out of range), `num_envs` equals
`NUM_ENVIRONMENTS - k` (as a Python int, possibly negative), and
`resume_all` restores `num_envs` to `NUM_ENVIRONMENTS`. -/
theorem claim_C10_pause_counting (M : ℕ) (hM : 0 < M) (stub : Bool) (sim : BSim)
    (rs : ℚ) (e0 : BatchedEnv) (h : init M stub sim rs = Except.ok e0)
    (ixs : List ℤ) (e : BatchedEnv) (he : e.num_envs_config = M) :
    num_envs (ixs.foldl pause_at e0) = (M : ℤ) - ixs.length ∧
    num_envs (resume_all (ixs.foldl pause_at e0)) = (M : ℤ) ∧
    num_envs (ixs.foldl pause_at (resume_all e)) = (M : ℤ) - ixs.length := by
  rw [init, if_pos hM] at h
  have he0 := Except.ok.inj h
  refine ⟨?_, ?_, ?_⟩
  · rw [num_envs, foldl_pause_paused, foldl_pause_config, ← he0]
    simp
  · rw [num_envs, resume_all, foldl_pause_config, ← he0]
    simp
  · rw [num_envs, foldl_pause_paused, foldl_pause_config, resume_all, he]
    simp

theorem claim_C10_witness :
    num_envs (([0, 7, 7] : List ℤ).foldl pause_at ⟨2, [], false, none, 1⟩) =
      (2 : ℤ) - 3 ∧
    num_envs (resume_all (([0, 7, 7] : List ℤ).foldl pause_at
      ⟨2, [], false, none, 1⟩)) = (2 : ℤ) ∧
    num_envs (([0, 7, 7] : List ℤ).foldl pause_at
      (resume_all ⟨2, [], false, none, 1⟩)) = (2 : ℤ) - 3 := by
  have h := claim_C10_pause_counting 2 (by omega) true ⟨[], []⟩ 1
    ⟨2, [], false, none, 1⟩ rfl [0, 7, 7] ⟨2, [], false, none, 1⟩ rfl
  simpa using h

end BatchedEnvModel
